import Mathlib

/-!
Verification of the MallardDataVault metadata-to-SQL core.

The Python source is shallowly embedded: pure statement-building functions
become Lean functions on `String`; the relational semantics of the emitted
INSERT / CREATE VIEW statements is modelled on lists of rows; the flow
orchestrator becomes a function from an abstract stage environment to a
result together with a journal of performed effects.  SQL NULL is modelled
as `Option.none`, SQL timestamps as `Nat`, and `sha1` as an arbitrary
(injective, when needed) function on strings.
-/

/-- First-occurrence de-duplication with an accumulator of already seen
elements.  This is the semantics of SQL `SELECT DISTINCT` on a list of rows
(one representative per distinct row, first occurrence kept in place), and
also of Python dict key order (first-seen order). -/
def distinctGo {α : Type} [DecidableEq α] (seen : List α) : List α → List α
  | [] => []
  | x :: xs => if x ∈ seen then distinctGo seen xs else x :: distinctGo (x :: seen) xs

/-- SQL `SELECT DISTINCT` over a list of rows. -/
def sqlDistinct {α : Type} [DecidableEq α] (l : List α) : List α := distinctGo [] l

/-! ## Hash expression generation (`HashViewGenerator.hash_fields`) -/

/-- Direct embedding of `HashViewGenerator.hash_fields`: build the SQL
expression hashing the given fields, in list order, into a column `name`. -/
def hash_fields (name : String) (fields : List String) : String :=
  let coalesce_expressions := fields.map (fun f => "coalesce(" ++ f ++ "::string,'')")
  let concat_expression :=
    "concat_ws('||'," ++ String.intercalate "," coalesce_expressions ++ ")"
  "sha1(upper(" ++ concat_expression ++ ")) as " ++ name

/-- The expression the specification says `hash_fields` returns:
sha1(upper(concat_ws('||', coalesce(f1::string,''), ..., coalesce(fn::string,'')))) as name,
written out directly from the spec sentence. -/
def claimedHashExpr (name : String) (fields : List String) : String :=
  "sha1(upper(concat_ws('||'," ++
    String.intercalate "," (fields.map (fun f => "coalesce(" ++ f ++ "::string,'')")) ++
    "))) as " ++ name

/-! Semantics of the emitted expression, under standard SQL evaluation:
a field value is an `Option String` (NULL = `none`); `coalesce(v,'')`
replaces NULL by the empty string; `upper` maps every character to upper
case; `concat_ws('||', …)` joins with the separator `||`; `sha1` is an
uninterpreted function `h`. -/

/-- SQL `coalesce(v::string,'')`. -/
def sqlCoalesceEmpty (v : Option String) : String := v.getD ""

/-- SQL `upper`. -/
def sqlUpper (s : String) : String := ⟨s.data.map Char.toUpper⟩

/-- SQL `concat_ws(sep, …)`: join the (already stringified) arguments with
the separator. -/
def sqlConcatWs (sep : String) : List String → String
  | [] => ""
  | [x] => x
  | x :: y :: xs => x ++ sep ++ sqlConcatWs sep (y :: xs)

/-- Evaluation of the hash expression emitted by `hash_fields` on a row of
field values, with `sha1` modelled by `h`. -/
def hashExprEval (h : String → String) (vals : List (Option String)) : String :=
  h (sqlUpper (sqlConcatWs "||" (vals.map sqlCoalesceEmpty)))

/-- The normalization the expression applies to a single value before
concatenation: NULL to empty string, then upper case. -/
def normalizeVal (v : Option String) : String := sqlUpper (v.getD "")


/-! ## Grouping utility (`HashViewGenerator.groupby`)

A Python dict record is an association list of string keys to string values;
`recGet` is the `r[key]` lookup, `joinKey` the `'.'.join(...)` key function.
Python's `itertools.groupby` groups *consecutive* records with equal keys
(`chunkRuns`), and the dict comprehension inserts each chunk into a dict,
a later chunk with an already-present key overwriting the earlier one in
place (`dictInsert`, insertion order preserved). -/

/-- Lookup `r[key]` in a Python dict record. -/
def recGet (r : List (String × String)) (key : String) : String :=
  match r.find? (fun p => p.1 == key) with
  | some p => p.2
  | none => ""

/-- The groupby key function: `'.'.join([r[key] for key in keys])`. -/
def joinKey (keys : List String) (r : List (String × String)) : String :=
  String.intercalate "." (keys.map (recGet r))

/-- `itertools.groupby`: split a list into maximal runs of consecutive
elements sharing the same key. -/
def chunkRuns {α : Type} (f : α → String) : List α → List (String × List α)
  | [] => []
  | x :: xs =>
    match chunkRuns f xs with
    | [] => [(f x, [x])]
    | (k, g) :: rest => if f x = k then (k, x :: g) :: rest else (f x, [x]) :: (k, g) :: rest

/-- Python dict insertion: overwrite in place if the key is present
(keeping its original position), else append. -/
def dictInsert {α : Type} (d : List (String × α)) (k : String) (v : α) :
    List (String × α) :=
  if d.any (fun p => p.1 == k) then d.map (fun p => if p.1 == k then (k, v) else p)
  else d ++ [(k, v)]

/-- The dict comprehension over `itertools.groupby`, for an arbitrary key
function. -/
def groupbyKey {α : Type} (f : α → String) (l : List α) : List (String × List α) :=
  (chunkRuns f l).foldl (fun d kg => dictInsert d kg.1 kg.2) []

/-- Direct embedding of `HashViewGenerator.groupby`. -/
def groupby (record_list : List (List (String × String))) (keys : List String) :
    List (String × List (List (String × String))) :=
  groupbyKey (joinKey keys) record_list

/-- The mapping the specification says `groupby` returns on sorted input:
from the '.'-joined key values, in first-seen order, to the ordered sublist
of matching records (original relative order preserved).  Written from the
spec sentence. -/
def specGroupby (record_list : List (List (String × String))) (keys : List String) :
    List (String × List (List (String × String))) :=
  (sqlDistinct (record_list.map (joinKey keys))).map
    (fun k => (k, record_list.filter (fun r => joinKey keys r == k)))

/-- Strict lexicographic comparison of character lists by code point. -/
def charListLt : List Char → List Char → Bool
  | [], [] => false
  | [], _ :: _ => true
  | _ :: _, [] => false
  | a :: as, b :: bs => decide (a < b) || (a == b && charListLt as bs)

/-- Lexicographic (non-strict) string order by code points, the model of the
metadata store's ORDER BY collation on the grouping key columns. -/
def strLeb (a b : String) : Bool := a == b || charListLt a.data b.data

/-! ## Hub load (`SQLTemplates.INSERT_HUB`, `DVHubManager.load_related_hubs`)

A hub row carries the hash key, load timestamp, record source, run id and
the business-key columns; a hash-view row carries, for one hub group, the
group's hash-key column and the source business-key fields in metadata
order. -/

structure HubRow where
  hk : String
  load_dts : Nat
  record_source : String
  run_id : Nat
  bks : List String
deriving DecidableEq

structure HubViewRow where
  hk : String
  bks : List String
deriving DecidableEq

/-- The hash keys currently stored in a hub relation. -/
def hubKeys (hub : List HubRow) : List String := hub.map HubRow.hk

/-- The inner SELECT DISTINCT of `SQLTemplates.INSERT_HUB`: hash-view rows
whose hash key does not occur in the target hub (LEFT OUTER JOIN with
`hub.hk IS NULL`), de-duplicated. -/
def insertHubSelect (view : List HubViewRow) (hub : List HubRow) : List HubViewRow :=
  sqlDistinct (view.filter (fun r => !(hubKeys hub).contains r.hk))

/-- Executing `SQLTemplates.INSERT_HUB` against a hub table whose hash-key
column is declared PRIMARY KEY (`SQLTemplates.CREATE_HUB`): the selected
batch is appended when it respects key uniqueness; otherwise the statement
fails, the table is unchanged, and the error is reported (collected by
`execute_sql_safely`).  Returns the new table state and the error flag. -/
def insertHub (view : List HubViewRow) (hub : List HubRow) (load_dts : Nat)
    (record_source : String) (run_id : Nat) : List HubRow × Bool :=
  let newRows := (insertHubSelect view hub).map
    (fun r => HubRow.mk r.hk load_dts record_source run_id r.bks)
  if (hubKeys hub ++ newRows.map HubRow.hk).Nodup then (hub ++ newRows, false)
  else (hub, true)

/-! ## Satellite load (`SQLTemplates.INSERT_SAT_NEW`,
`SQLTemplates.INSERT_SAT_DELETE`, `SQLTemplates.CREATE_CURRENT_VIEW`,
`DVSatelliteManager.load_related_sats`) -/

structure SatRow where
  hk : String
  load_dts : Nat
  del_flag : Bool
  hash_diff : String
  record_source : String
  run_id : Nat
  attrs : List String
deriving DecidableEq

/-- A hash-view row as seen by one satellite group: the hash-key column
(`src.{source_field}`), the group's hash-diff column, and the payload
fields in metadata order. -/
structure SatViewRow where
  hk : String
  hash_diff : String
  attrs : List String
deriving DecidableEq

/-- The correlated subquery of `SQLTemplates.INSERT_SAT_NEW` and the window
of `CREATE_CURRENT_VIEW`: the most recent version for a hash key
(ORDER BY load_dts DESC LIMIT 1).  Ties on the timestamp are broken by
keeping the earlier row; the engine's tie order is unspecified and the spec
leaves the tie-break open. -/
def latestStep (acc : Option SatRow) (r : SatRow) : Option SatRow :=
  match acc with
  | none => some r
  | some m => if m.load_dts < r.load_dts then some r else some m

def latestFor (sat : List SatRow) (k : String) : Option SatRow :=
  (sat.filter (fun r => r.hk == k)).foldl latestStep none

/-- The NOT EXISTS condition of `SQLTemplates.INSERT_SAT_NEW`: a staging row
is admitted iff the most recent existing version for its key does not have
both the identical hash-diff and delete flag false. -/
def satNewFilter (sat : List SatRow) (src : SatViewRow) : Bool :=
  match latestFor sat src.hk with
  | none => true
  | some m => !(m.hash_diff == src.hash_diff && m.del_flag == false)

/-- The SELECT DISTINCT of `SQLTemplates.INSERT_SAT_NEW`. -/
def satNewCandidates (view : List SatViewRow) (sat : List SatRow) : List SatViewRow :=
  sqlDistinct (view.filter (satNewFilter sat))

/-- Executing `SQLTemplates.INSERT_SAT_NEW`: append one version (delete flag
false, the group's hash-diff, the payload fields) for every admitted
distinct staging row.  Satellites have no key constraint and are
append-only. -/
def insertSatNew (view : List SatViewRow) (sat : List SatRow) (load_dts : Nat)
    (record_source : String) (run_id : Nat) : List SatRow :=
  sat ++ (satNewCandidates view sat).map
    (fun r => SatRow.mk r.hk load_dts false r.hash_diff record_source run_id r.attrs)

/-- The distinct hash keys present in a satellite, in first-occurrence
order (the partitions of the window functions). -/
def satKeys (sat : List SatRow) : List String := sqlDistinct (sat.map SatRow.hk)

/-- The rank-1 rows of `row_number() over (partition by hash key order by
load_dts desc)`: one most recent version per key present. -/
def latestRows (sat : List SatRow) : List SatRow :=
  (satKeys sat).filterMap (latestFor sat)

/-- The current-value view built by `SQLTemplates.CREATE_CURRENT_VIEW`: all
satellite columns of the row-rank-1 rows, with no delete-flag restriction. -/
def currentView (sat : List SatRow) : List SatRow := latestRows sat

/-- The SELECT DISTINCT of `SQLTemplates.INSERT_SAT_DELETE`: among the
rank-1 (latest per key) rows, those with delete flag false whose key is
absent from the hash view (left join, `src.hashdiff IS NULL`). -/
def satDeleteCandidates (view : List SatViewRow) (sat : List SatRow) : List SatRow :=
  sqlDistinct ((latestRows sat).filter
    (fun m => m.del_flag == false && !(view.any (fun s => s.hk == m.hk))))

/-- Executing `SQLTemplates.INSERT_SAT_DELETE`: append one delete version
(delete flag true) per selected key, carrying forward the latest version's
hash-diff and attribute values. -/
def insertSatDelete (view : List SatViewRow) (sat : List SatRow) (load_dts : Nat)
    (record_source : String) (run_id : Nat) : List SatRow :=
  sat ++ (satDeleteCandidates view sat).map
    (fun m => SatRow.mk m.hk load_dts true m.hash_diff record_source run_id m.attrs)

/-! ## Satellite DDL builder (`DVSatelliteManager.create_sat_from_metadata`)

Table-column metadata records, and the per-group satellite DDL assembly.
The relational engine is modelled as accepting every well-formed statement;
the function returns the executed DDL statements and the collected
`(statement, message)` error pairs. -/

structure TableRecord where
  base_name : String
  rel_type : String
  column_name : String
  column_type : String
  column_position : Int
  mapping : String
deriving DecidableEq

/-- A hash-key column entry: `{name}_hk CHAR(40)`, double-quoted when the
column name contains a space. -/
def satHkCol (column_name : String) : String :=
  (if column_name.contains ' ' then "\"" else "") ++ column_name ++ "_hk" ++
    (if column_name.contains ' ' then "\"" else "") ++ " CHAR(40)"

/-- A descriptive column entry: `{name} {type}`, double-quoted when the
column name contains a space. -/
def satFieldCol (column_name column_type : String) : String :=
  (if column_name.contains ' ' then "\"" else "") ++ column_name ++
    (if column_name.contains ' ' then "\"" else "") ++ " " ++ column_type

/-- `SQLTemplates.CREATE_SAT` with its placeholders substituted. -/
def create_sat_sql (table_type table_base_name hub_key : String)
    (field_list : List String) : String :=
  "\n    CREATE TABLE IF NOT EXISTS dv." ++ table_type ++ "_" ++ table_base_name ++
    " (\n        " ++ hub_key ++
    " NOT NULL,\n        load_dts TIMESTAMP NOT NULL,\n        del_flag BOOLEAN NOT NULL,\n        hash_diff CHAR(40) NOT NULL,\n        record_source VARCHAR(255) NOT NULL,\n        run_id INTEGER NOT NULL" ++
    (if field_list.isEmpty then "" else ", ") ++ "\n        " ++
    String.intercalate ",\n               " field_list ++ "\n    )\n    "

/-- The hash-key column entries of one satellite group (`mapping = "hk"`). -/
def satGroupHkList (fields : List TableRecord) : List String :=
  (fields.filter (fun f => f.mapping == "hk")).map (fun f => satHkCol f.column_name)

/-- The descriptive column entries of one satellite group. -/
def satGroupFieldList (fields : List TableRecord) : List String :=
  (fields.filter (fun f => !(f.mapping == "hk"))).map
    (fun f => satFieldCol f.column_name f.column_type)

/-- The DDL statement built for one `rel_type.base_name` group, before the
hash-key-count validation runs (the source builds `sql_str` first). -/
def satGroupSql (rel_base_name : String) (fields : List TableRecord) : String :=
  create_sat_sql ((rel_base_name.splitOn ".").headD "")
    (String.intercalate "." (rel_base_name.splitOn ".").tail)
    ((satGroupHkList fields).headD "") (satGroupFieldList fields)

/-- The `DVEntityError` message raised for a group without exactly one
hash-key column. -/
def satGroupError (rel_base_name : String) : String :=
  "Satellite " ++ String.intercalate "." (rel_base_name.splitOn ".").tail ++
    " must have exactly one hub key"

/-- Direct embedding of `DVSatelliteManager.create_sat_from_metadata`'s
per-group loop: group the records by `rel_type.base_name`; for each group
raise (and catch into the error list) the validation error when the number
of hash-key columns differs from one, executing no DDL for that group;
otherwise submit the DDL to the engine.  Returns (executed DDL, errors). -/
def create_sat_from_metadata (raw_sat_records : List TableRecord) :
    List String × List (String × String) :=
  (groupbyKey (fun r => r.rel_type ++ "." ++ r.base_name) raw_sat_records).foldl
    (fun acc kg =>
      if (satGroupHkList kg.2).length ≠ 1 then
        (acc.1, acc.2 ++ [(satGroupSql kg.1 kg.2, satGroupError kg.1)])
      else (acc.1 ++ [satGroupSql kg.1 kg.2], acc.2))
    ([], [])

/-! ## Hash view computation (`HashViewGenerator.compute_hash_view`)

Field-transition metadata records, and the hash-field-list computation of
`compute_hash_view`.  The CTE field list (built from a Python `set`, whose
iteration order is unspecified) and the final view DDL text are orthogonal
to the claims and are not part of this model; the model covers the hub,
link and satellite hash-expression computation, in which looking up a hub
group that does not exist raises an uncaught `KeyError`
(`hub_hash_groups[ks["source_field"]]`), modelled as `Except.error`. -/

structure TransitionRecord where
  source_table : String
  source_field : String
  target_table : String
  target_field : String
  group_name : String
  position : Int
  raw : Bool
  transformation : Option String
  transfer_type : String
deriving DecidableEq

/-- Python `d[k]` on a dict: the value when the key is present, otherwise a
raised `KeyError`, modelled as `Except.error`. -/
def dictGet {α : Type} (d : List (String × α)) (k : String) : Except String α :=
  match d.find? (fun p => p.1 == k) with
  | some p => Except.ok p.2
  | none => Except.error ("KeyError: " ++ k)

/-- The member-resolution loop for one link group: an `ll` member
contributes the source fields of the hub group named by its source field
(raising `KeyError` when that group does not exist), any other member
contributes its own source field. -/
def resolveLinkFields (hub_hash_groups : List (String × List TransitionRecord)) :
    List TransitionRecord → Except String (List String)
  | [] => Except.ok []
  | ks :: rest =>
    if ks.transfer_type == "ll" then
      match dictGet hub_hash_groups ks.source_field with
      | Except.error e => Except.error e
      | Except.ok hhg =>
        match resolveLinkFields hub_hash_groups rest with
        | Except.error e => Except.error e
        | Except.ok tl => Except.ok (hhg.map (fun r => r.source_field) ++ tl)
    else
      match resolveLinkFields hub_hash_groups rest with
      | Except.error e => Except.error e
      | Except.ok tl => Except.ok (ks.source_field :: tl)

/-- The hash-field-list computation of `compute_hash_view`: hub hash keys
from the `bk` groups, link hash keys from the `ll`/`dk` groups (resolving
`ll` members through the hub groups), and satellite hash-diffs from the `f`
groups.  An absent hub group surfaces as `Except.error`, not as an entry of
the collected error list. -/
def compute_hash_view_hashes (records : List TransitionRecord) :
    Except String (List String) :=
  let hub_hash_groups := groupbyKey (fun r => r.group_name)
    (records.filter (fun r => r.transfer_type == "bk"))
  let hub_fields := hub_hash_groups.map
    (fun kg => hash_fields (kg.1 ++ "_hk") (kg.2.map (fun c => c.source_field)))
  let link_hash_groups := groupbyKey (fun r => r.group_name)
    (records.filter (fun r => r.transfer_type == "ll" || r.transfer_type == "dk"))
  let resolved := link_hash_groups.foldl
    (fun acc kg => match acc with
      | Except.error e => Except.error e
      | Except.ok fl =>
        match resolveLinkFields hub_hash_groups kg.2 with
        | Except.error e => Except.error e
        | Except.ok names => Except.ok (fl ++ [hash_fields (kg.1 ++ "_hk") names]))
    (Except.ok hub_fields)
  match resolved with
  | Except.error e => Except.error e
  | Except.ok fl =>
    Except.ok (fl ++ (groupbyKey (fun r => r.group_name)
      (records.filter (fun r => r.transfer_type == "f"))).map
      (fun kg => hash_fields (kg.1 ++ "_hashdiff") (kg.2.map (fun c => c.source_field))))

/-- The hash stage as seen by the flow: when the hash expressions compute,
the view DDL executes (the engine accepts it) and the empty error list is
returned; a `KeyError` propagates as an exception. -/
def hashStageResult (records : List TransitionRecord) :
    Except String (List (String × String)) :=
  match compute_hash_view_hashes records with
  | Except.error e => Except.error e
  | Except.ok _ => Except.ok []

/-! ## Flow orchestration (`FlowExecutor.execute_flow`,
`FlowExecutor._register_run_end`)

The collaborating services are abstracted into an environment giving each
stage's outcome; the orchestrator is a function returning the error list
(or a propagated exception) together with the journal of effects it
performed, in order. -/

inductive FlowEvent where
  | checkIngestion (source_table file_path : String)
  | registerRun (source_table : String) (run_id : Nat) (file_path : Option String)
      (status : String) (message : String)
  | stageStaging
  | stageHash
  | stageHub
  | stageLink
  | stageSat
deriving DecidableEq

structure FlowEnv where
  already_ingested : Bool
  next_run_id : Nat
  staging_errors : List (String × String)
  hash_result : Except String (List (String × String))
  hub_errors : List (String × String)
  link_errors : List (String × String)
  sat_errors : List (String × String)

/-- Python string slicing `s[:n]` (by characters). -/
def pyTruncate (s : String) (n : Nat) : String := String.mk (s.data.take n)

/-- The run-end message built by `_register_run_end`, truncated to 4095
characters: `"{n} errors occurred: {first}"` with `" and {n-1} more"`
appended when there are several. -/
def run_end_message (errors : List (String × String)) : String :=
  if errors.isEmpty then pyTruncate "" 4095
  else
    pyTruncate (toString errors.length ++ " errors occurred" ++ ": " ++
      (errors.headD ("", "")).2 ++
      (if errors.length > 1 then " and " ++ toString (errors.length - 1) ++ " more"
       else "")) 4095

/-- The events every non-short-circuited run performs before the hash
stage: the idempotency check (when applicable), the start record, and the
staging stage (when a file is supplied). -/
def flowPrefix (source_table : String) (run_id : Nat) (file_path : Option String)
    (force_load : Bool) : List FlowEvent :=
  (if !force_load && file_path.isSome then
    [FlowEvent.checkIngestion source_table (file_path.getD "")] else []) ++
  [FlowEvent.registerRun source_table run_id file_path "start" ""] ++
  (if file_path.isSome then [FlowEvent.stageStaging] else [])

/-- Direct embedding of `FlowExecutor.execute_flow`: idempotency check,
run-id allocation and start record, then the staging, hash, hub, link and
satellite stages in order, short-circuiting to a failure record on the
first stage returning errors, and finally the terminal record.  An
exception from the hash stage propagates uncaught. -/
def execute_flow (env : FlowEnv) (source_table record_source : String)
    (file_path : Option String) (force_load : Bool) :
    Except String (List (String × String) × List FlowEvent) :=
  let ev1 := if !force_load && file_path.isSome then
    [FlowEvent.checkIngestion source_table (file_path.getD "")] else []
  if !force_load && file_path.isSome && env.already_ingested then
    Except.ok ([], ev1)
  else
    let run_id := env.next_run_id
    let ev2 := ev1 ++ [FlowEvent.registerRun source_table run_id file_path "start" ""]
    if file_path.isSome && !env.staging_errors.isEmpty then
      Except.ok (env.staging_errors,
        ev2 ++ [FlowEvent.stageStaging,
          FlowEvent.registerRun source_table run_id file_path "failure"
            (run_end_message env.staging_errors)])
    else
      let ev3 := (if file_path.isSome then ev2 ++ [FlowEvent.stageStaging] else ev2) ++
        [FlowEvent.stageHash]
      match env.hash_result with
      | Except.error e => Except.error e
      | Except.ok hash_errors =>
        if !hash_errors.isEmpty then
          Except.ok (hash_errors,
            ev3 ++ [FlowEvent.registerRun source_table run_id file_path "failure"
              (run_end_message hash_errors)])
        else
          let ev4 := ev3 ++ [FlowEvent.stageHub]
          if !env.hub_errors.isEmpty then
            Except.ok (env.hub_errors,
              ev4 ++ [FlowEvent.registerRun source_table run_id file_path "failure"
                (run_end_message env.hub_errors)])
          else
            let ev5 := ev4 ++ [FlowEvent.stageLink]
            if !env.link_errors.isEmpty then
              Except.ok (env.link_errors,
                ev5 ++ [FlowEvent.registerRun source_table run_id file_path "failure"
                  (run_end_message env.link_errors)])
            else
              let ev6 := ev5 ++ [FlowEvent.stageSat]
              Except.ok (env.sat_errors,
                ev6 ++ [FlowEvent.registerRun source_table run_id file_path
                  (if env.sat_errors.isEmpty then "success" else "failure")
                  (run_end_message env.sat_errors)])

/-! ## Theorems -/

theorem mem_distinctGo {α : Type} [DecidableEq α] (seen l : List α) (a : α) :
    a ∈ distinctGo seen l ↔ a ∈ l ∧ a ∉ seen := by
  induction l generalizing seen with
  | nil => simp [distinctGo]
  | cons x xs ih =>
    simp only [distinctGo]
    by_cases hx : x ∈ seen
    · rw [if_pos hx, ih]
      constructor
      · rintro ⟨h1, h2⟩
        exact ⟨List.mem_cons_of_mem _ h1, h2⟩
      · rintro ⟨h1, h2⟩
        rcases List.mem_cons.mp h1 with rfl | h1
        · exact absurd hx h2
        · exact ⟨h1, h2⟩
    · rw [if_neg hx]
      constructor
      · intro h
        rcases List.mem_cons.mp h with rfl | h
        · exact ⟨List.mem_cons_self _ _, hx⟩
        · obtain ⟨h1, h2⟩ := (ih _).mp h
          refine ⟨List.mem_cons_of_mem _ h1, fun hc => h2 (List.mem_cons_of_mem _ hc)⟩
      · rintro ⟨h1, h2⟩
        rcases List.mem_cons.mp h1 with rfl | h1
        · exact List.mem_cons_self _ _
        · by_cases hax : a = x
          · exact hax ▸ List.mem_cons_self _ _
          · refine List.mem_cons_of_mem _ ((ih _).mpr ⟨h1, ?_⟩)
            intro hc
            rcases List.mem_cons.mp hc with h | h
            · exact hax h
            · exact h2 h

theorem mem_sqlDistinct {α : Type} [DecidableEq α] (l : List α) (a : α) :
    a ∈ sqlDistinct l ↔ a ∈ l := by
  simp [sqlDistinct, mem_distinctGo]

theorem nodup_distinctGo {α : Type} [DecidableEq α] (seen l : List α) :
    (distinctGo seen l).Nodup := by
  induction l generalizing seen with
  | nil => simp [distinctGo]
  | cons x xs ih =>
    by_cases hx : x ∈ seen
    · simpa [distinctGo, if_pos hx] using ih seen
    · simp only [distinctGo, if_neg hx, List.nodup_cons]
      refine ⟨fun hc => ?_, ih (x :: seen)⟩
      exact ((mem_distinctGo _ _ _).mp hc).2 (List.mem_cons_self x seen)

theorem nodup_sqlDistinct {α : Type} [DecidableEq α] (l : List α) :
    (sqlDistinct l).Nodup := nodup_distinctGo [] l

theorem distinctGo_eq_self {α : Type} [DecidableEq α] (seen l : List α)
    (h : l.Nodup) (hd : ∀ a ∈ l, a ∉ seen) : distinctGo seen l = l := by
  induction l generalizing seen with
  | nil => simp [distinctGo]
  | cons x xs ih =>
    have hx : x ∉ seen := hd x (List.mem_cons_self x xs)
    simp only [distinctGo, if_neg hx]
    congr 1
    refine ih (x :: seen) (List.Nodup.of_cons h) ?_
    intro a ha
    simp only [List.mem_cons]
    rintro (rfl | hc)
    · exact (List.nodup_cons.mp h).1 ha
    · exact hd a (List.mem_cons.mpr (Or.inr ha)) hc

theorem sqlDistinct_eq_self {α : Type} [DecidableEq α] (l : List α) (h : l.Nodup) :
    sqlDistinct l = l :=
  distinctGo_eq_self [] l h (by simp)

theorem sqlUpper_append (a b : String) : sqlUpper (a ++ b) = sqlUpper a ++ sqlUpper b := by
  apply String.ext
  simp [sqlUpper, String.data_append]

theorem sqlConcatWs_upper : ∀ xs : List String,
    sqlUpper (sqlConcatWs "||" xs) = sqlConcatWs "||" (xs.map sqlUpper)
  | [] => by decide
  | [x] => rfl
  | x :: y :: xs => by
    have ih := sqlConcatWs_upper (y :: xs)
    show sqlUpper ((x ++ "||") ++ sqlConcatWs "||" (y :: xs)) = _
    rw [sqlUpper_append, sqlUpper_append, ih]
    have hsep : sqlUpper "||" = "||" := by decide
    rw [hsep]
    rfl

theorem hashExprEval_eq (h : String → String) (vals : List (Option String)) :
    hashExprEval h vals = h (sqlConcatWs "||" (vals.map normalizeVal)) := by
  unfold hashExprEval
  rw [sqlConcatWs_upper]
  congr 1
  rw [List.map_map]
  rfl

theorem sep_pair_comm_aux {α : Type} (s : α) (A B : List α)
    (hB : s ∉ B) (hle : A.length ≤ B.length)
    (h : A ++ [s, s] ++ B = B ++ [s, s] ++ A) : A = B := by
  have hpA : A <+: (A ++ [s, s]) ++ B := by
    rw [List.append_assoc]; exact List.prefix_append A _
  have hpB : B <+: (A ++ [s, s]) ++ B := by
    rw [h, List.append_assoc]; exact List.prefix_append B _
  have hAB : A <+: B := List.prefix_of_prefix_length_le hpA hpB hle
  obtain ⟨C, rfl⟩ := hAB
  have h' : [s, s] ++ (A ++ C) = C ++ ([s, s] ++ A) := by
    have h2 := h
    simp only [List.append_assoc] at h2
    exact List.append_cancel_left h2
  cases C with
  | nil => simp
  | cons c C' =>
    exfalso
    have hc : s = c := by
      simp only [List.cons_append, List.nil_append] at h'
      injection h' with h3 _
    refine hB ?_
    rw [hc]
    exact List.mem_append_right A (List.mem_cons_self c C')

theorem sep_pair_comm {α : Type} (s : α) (A B : List α) (hA : s ∉ A) (hB : s ∉ B)
    (h : A ++ [s, s] ++ B = B ++ [s, s] ++ A) : A = B := by
  rcases Nat.le_total A.length B.length with hle | hle
  · exact sep_pair_comm_aux s A B hB hle h
  · exact (sep_pair_comm_aux s B A hA hle h.symm).symm

theorem concat_pair_comm (X Y : String) (hX : '|' ∉ X.data) (hY : '|' ∉ Y.data)
    (h : X ++ "||" ++ Y = Y ++ "||" ++ X) : X = Y := by
  apply String.ext
  apply sep_pair_comm '|' X.data Y.data hX hY
  have hsep : ("||" : String).data = ['|', '|'] := by decide
  have hd := congrArg String.data h
  simp only [String.data_append, hsep] at hd
  simpa using hd

theorem hash_fields_eq_claimed (name : String) (fields : List String) :
    hash_fields name fields = claimedHashExpr name fields := by
  simp only [hash_fields, claimedHashExpr]
  generalize String.intercalate "," (fields.map fun f => "coalesce(" ++ f ++ "::string,'')") = I
  have e1 : ("sha1(upper(" : String) ++ "concat_ws('||'," = "sha1(upper(concat_ws('||'," := by
    decide
  have e2 : (")" : String) ++ ")) as " = "))) as " := by decide
  calc "sha1(upper(" ++ ("concat_ws('||'," ++ I ++ ")") ++ ")) as " ++ name
      = (("sha1(upper(" ++ "concat_ws('||',") ++ I) ++ (")" ++ ")) as ") ++ name := by
        simp only [String.append_assoc]
    _ = "sha1(upper(concat_ws('||'," ++ I ++ "))) as " ++ name := by rw [e1, e2]

/-- C1: hash_fields returns exactly the SQL expression
sha1(upper(concat_ws('||', coalesce(f1::string,''), ..., coalesce(fn::string,'')))) as name
with the fields in the given list order; the generated hash expression
normalizes case (upper) and NULLs (coalesce to the empty string), and
(amended) hashing values (a,b) differs from hashing (b,a) exactly when a and
b differ after the mandated normalization — for values whose normalized
rendering is free of the separator character — rather than whenever a ≠ b
literally. -/
theorem C1_hash_fields_expression :
    (∀ name fields, fields ≠ [] → hash_fields name fields = claimedHashExpr name fields) ∧
    (∀ h : String → String, Function.Injective h →
      ∀ a b : Option String, '|' ∉ (normalizeVal a).data → '|' ∉ (normalizeVal b).data →
        (hashExprEval h [a, b] = hashExprEval h [b, a] ↔ normalizeVal a = normalizeVal b)) ∧
    (∀ (h : String → String) (vals vals' : List (Option String)),
      vals.map normalizeVal = vals'.map normalizeVal →
        hashExprEval h vals = hashExprEval h vals') := by
  refine ⟨fun name fields _ => hash_fields_eq_claimed name fields,
    fun h hinj a b ha hb => ?_, fun h vals vals' hv => ?_⟩
  · rw [hashExprEval_eq, hashExprEval_eq]
    constructor
    · intro he
      exact concat_pair_comm _ _ ha hb (hinj he)
    · intro he
      congr 1
      show normalizeVal a ++ "||" ++ normalizeVal b = normalizeVal b ++ "||" ++ normalizeVal a
      rw [he]
  · rw [hashExprEval_eq, hashExprEval_eq, hv]

/-- C1 witness: the theorem applied at concrete inputs. -/
theorem C1_hash_fields_expression_witness :
    hash_fields "customer_hk" ["id", "country"] = claimedHashExpr "customer_hk" ["id", "country"] ∧
    (hashExprEval id [some "a", some "b"] = hashExprEval id [some "b", some "a"] ↔
      normalizeVal (some "a") = normalizeVal (some "b")) ∧
    hashExprEval id [some "x", none] = hashExprEval id [some "X", some ""] :=
  ⟨C1_hash_fields_expression.1 "customer_hk" ["id", "country"] (by simp),
   C1_hash_fields_expression.2.1 id Function.injective_id (some "a") (some "b")
     (by decide) (by decide),
   C1_hash_fields_expression.2.2 id [some "x", none] [some "X", some ""] (by decide)⟩

/-- C1 counterexample: for the values a = "x" and b = "X" (which are not
equal), the argument passed to sha1 by the generated expression is literally
the same string for field order (a,b) and (b,a) — upper("x||X") =
upper("X||x") — so the two hashes coincide although a ≠ b, refuting "hashing
fields (a,b) differs from (b,a) unless a equals b" as literally stated. -/
theorem C1_hash_fields_counterexample :
    hashExprEval id [some "x", some "X"] = hashExprEval id [some "X", some "x"] ∧
    sqlUpper (sqlConcatWs "||" ([some "x", some "X"].map sqlCoalesceEmpty)) =
      sqlUpper (sqlConcatWs "||" ([some "X", some "x"].map sqlCoalesceEmpty)) ∧
    (some "x" : Option String) ≠ some "X" :=
  ⟨by decide, by decide, by decide⟩

theorem dictInsert_keys {α : Type} (d : List (String × α)) (k : String) (v : α) :
    (dictInsert d k v).map Prod.fst =
      if k ∈ d.map Prod.fst then d.map Prod.fst else d.map Prod.fst ++ [k] := by
  unfold dictInsert
  by_cases h : d.any (fun p => p.1 == k)
  · rw [if_pos h]
    have hk : k ∈ d.map Prod.fst := by
      obtain ⟨p, hp, hpk⟩ := List.any_eq_true.mp h
      exact List.mem_map.mpr ⟨p, hp, beq_iff_eq.mp hpk⟩
    rw [if_pos hk, List.map_map]
    apply List.map_congr_left
    intro p hp
    by_cases hpk : (p.1 == k) = true
    · show Prod.fst (if p.1 == k then (k, v) else p) = p.1
      rw [if_pos hpk]
      exact (beq_iff_eq.mp hpk).symm
    · show Prod.fst (if p.1 == k then (k, v) else p) = p.1
      rw [if_neg hpk]
  · rw [if_neg h]
    have hk : k ∉ d.map Prod.fst := by
      intro hc
      obtain ⟨p, hp, hpk⟩ := List.mem_map.mp hc
      exact h (List.any_eq_true.mpr ⟨p, hp, beq_iff_eq.mpr hpk⟩)
    rw [if_neg hk, List.map_append]
    rfl

theorem foldl_dictInsert_keys_nodup {α : Type} :
    ∀ (chunks d : List (String × α)), (d.map Prod.fst).Nodup →
      ((chunks.foldl (fun d kg => dictInsert d kg.1 kg.2) d).map Prod.fst).Nodup
  | [], _, hd => hd
  | c :: rest, d, hd => by
    show ((rest.foldl (fun d kg => dictInsert d kg.1 kg.2) (dictInsert d c.1 c.2)).map
      Prod.fst).Nodup
    apply foldl_dictInsert_keys_nodup rest
    rw [dictInsert_keys]
    by_cases h : c.1 ∈ d.map Prod.fst
    · rw [if_pos h]; exact hd
    · rw [if_neg h, List.nodup_append]
      refine ⟨hd, List.nodup_singleton _, fun x hx hx' => ?_⟩
      rw [List.mem_singleton] at hx'
      exact h (hx' ▸ hx)

theorem foldl_dictInsert_mem {α : Type} :
    ∀ (chunks d : List (String × α)) (e : String × α),
      e ∈ chunks.foldl (fun d kg => dictInsert d kg.1 kg.2) d → e ∈ d ∨ e ∈ chunks
  | [], _, _, he => Or.inl he
  | c :: rest, d, e, he => by
    rcases foldl_dictInsert_mem rest (dictInsert d c.1 c.2) e he with h | h
    · unfold dictInsert at h
      by_cases hc : d.any (fun p => p.1 == c.1)
      · rw [if_pos hc] at h
        obtain ⟨p, hp, hpe⟩ := List.mem_map.mp h
        by_cases hpk : (p.1 == c.1) = true
        · rw [if_pos hpk] at hpe
          right
          rw [← hpe]
          exact List.mem_cons_self c rest
        · rw [if_neg hpk] at hpe
          exact Or.inl (hpe ▸ hp)
      · rw [if_neg hc] at h
        rcases List.mem_append.mp h with h' | h'
        · exact Or.inl h'
        · right
          rw [List.mem_singleton] at h'
          rw [h']
          exact List.mem_cons_self c rest
    · exact Or.inr (List.mem_cons_of_mem c h)

theorem foldl_dictInsert_of_nodup {α : Type} :
    ∀ (chunks d : List (String × α)),
      (d.map Prod.fst ++ chunks.map Prod.fst).Nodup →
      chunks.foldl (fun d kg => dictInsert d kg.1 kg.2) d = d ++ chunks
  | [], d, _ => by simp
  | c :: rest, d, hnd => by
    have hc1 : c.1 ∉ d.map Prod.fst := by
      intro hc
      exact (List.nodup_append.mp hnd).2.2 hc (by simp)
    have hins : dictInsert d c.1 c.2 = d ++ [c] := by
      unfold dictInsert
      have hany : ¬ (d.any fun p => p.1 == c.1) = true := by
        intro hany
        obtain ⟨p, hp, hpk⟩ := List.any_eq_true.mp hany
        exact hc1 (List.mem_map.mpr ⟨p, hp, beq_iff_eq.mp hpk⟩)
      rw [if_neg hany]
    show rest.foldl (fun d kg => dictInsert d kg.1 kg.2) (dictInsert d c.1 c.2) = d ++ c :: rest
    rw [hins, foldl_dictInsert_of_nodup rest (d ++ [c]) ?_, List.append_assoc,
      List.singleton_append]
    rw [List.map_append]
    simpa [List.append_assoc] using hnd

theorem chunkRuns_cons_eq {α : Type} (f : α → String) :
    ∀ (xs : List α) (x : α),
      chunkRuns f (x :: xs) =
        (f x, x :: xs.takeWhile (fun y => f y == f x)) ::
          chunkRuns f (xs.dropWhile (fun y => f y == f x))
  | [], x => rfl
  | y :: ys, x => by
    have ih := chunkRuns_cons_eq f ys y
    show (match chunkRuns f (y :: ys) with
      | [] => [(f x, [x])]
      | (k, g) :: rest =>
          if f x = k then (k, x :: g) :: rest else (f x, [x]) :: (k, g) :: rest) = _
    rw [ih]
    by_cases hxy : f x = f y
    · have hpy : (f y == f x) = true := beq_iff_eq.mpr hxy.symm
      simp only [List.takeWhile_cons, List.dropWhile_cons, hpy, if_pos hxy, if_true]
      rw [hxy]
    · have hpy : (f y == f x) = false := by
        rw [beq_eq_false_iff_ne]
        exact fun h => hxy h.symm
      simp only [List.takeWhile_cons, List.dropWhile_cons, hpy, if_neg hxy,
        Bool.false_eq_true, if_false]
      rw [← ih]

theorem charListLt_asymm :
    ∀ x y : List Char, charListLt x y = true → charListLt y x = true → False
  | [], [], h, _ => by simp [charListLt] at h
  | [], _ :: _, _, h2 => by simp [charListLt] at h2
  | _ :: _, [], h1, _ => by simp [charListLt] at h1
  | a :: as, b :: bs, h1, h2 => by
    simp only [charListLt, Bool.or_eq_true, Bool.and_eq_true, decide_eq_true_eq,
      beq_iff_eq] at h1 h2
    rcases h1 with h1 | ⟨he1, h1⟩
    · rcases h2 with h2 | ⟨he2, _⟩
      · exact absurd h2 (lt_asymm h1)
      · rw [he2] at h1
        exact lt_irrefl a h1
    · rcases h2 with h2 | ⟨_, h2⟩
      · rw [he1] at h2
        exact lt_irrefl b h2
      · exact charListLt_asymm as bs h1 h2

theorem strLeb_antisymm (a b : String) (h1 : strLeb a b = true) (h2 : strLeb b a = true) :
    a = b := by
  unfold strLeb at h1 h2
  simp only [Bool.or_eq_true, beq_iff_eq] at h1 h2
  rcases h1 with rfl | h1
  · rfl
  rcases h2 with rfl | h2
  · rfl
  exact (charListLt_asymm _ _ h1 h2).elim

theorem pairwise_dropWhile_ne {α : Type} (f : α → String) :
    ∀ (xs : List α) (x : α),
      ((x :: xs).map f).Pairwise (fun a b => strLeb a b = true) →
      ∀ z ∈ xs.dropWhile (fun y => f y == f x), f z ≠ f x
  | [], _, _, z, hz => by simp at hz
  | y :: ys, x, hp, z, hz => by
    by_cases hy : (f y == f x) = true
    · rw [List.dropWhile_cons] at hz
      simp only [hy, if_pos] at hz
      have hsub : List.Sublist ((x :: ys).map f) ((x :: y :: ys).map f) :=
        ((List.sublist_cons_self y ys).cons₂ x).map f
      exact pairwise_dropWhile_ne f ys x (hp.sublist hsub) z hz
    · rw [List.dropWhile_cons] at hz
      simp only [hy, Bool.false_eq_true, if_false] at hz
      have hyx : f y ≠ f x := by
        intro hc
        exact hy (beq_iff_eq.mpr hc)
      rcases List.mem_cons.mp hz with rfl | hz'
      · exact hyx
      · intro hzx
        have h1 : strLeb (f x) (f y) = true :=
          (List.pairwise_cons.mp hp).1 (f y) (by simp)
        have hp2 := (List.pairwise_cons.mp hp).2
        have h2 : strLeb (f y) (f z) = true :=
          (List.pairwise_cons.mp hp2).1 (f z) (List.mem_map_of_mem f hz')
        rw [hzx] at h2
        exact hyx (strLeb_antisymm _ _ h2 h1)

theorem distinctGo_append_seen {α : Type} [DecidableEq α] :
    ∀ (L R seen : List α), (∀ a ∈ L, a ∈ seen) →
      distinctGo seen (L ++ R) = distinctGo seen R
  | [], _, _, _ => rfl
  | x :: L, R, seen, h => by
    show distinctGo seen (x :: (L ++ R)) = _
    rw [show distinctGo seen (x :: (L ++ R)) =
      if x ∈ seen then distinctGo seen (L ++ R)
      else x :: distinctGo (x :: seen) (L ++ R) from rfl]
    rw [if_pos (h x (List.mem_cons_self x L))]
    exact distinctGo_append_seen L R seen (fun a ha => h a (List.mem_cons_of_mem x ha))

theorem distinctGo_seen_congr {α : Type} [DecidableEq α] :
    ∀ (R seen₁ seen₂ : List α), (∀ a ∈ R, a ∈ seen₁ ↔ a ∈ seen₂) →
      distinctGo seen₁ R = distinctGo seen₂ R
  | [], _, _, _ => rfl
  | x :: R, seen₁, seen₂, h => by
    show (if x ∈ seen₁ then distinctGo seen₁ R else x :: distinctGo (x :: seen₁) R) =
      (if x ∈ seen₂ then distinctGo seen₂ R else x :: distinctGo (x :: seen₂) R)
    by_cases hx : x ∈ seen₁
    · rw [if_pos hx, if_pos ((h x (List.mem_cons_self x R)).mp hx)]
      exact distinctGo_seen_congr R seen₁ seen₂ (fun a ha => h a (List.mem_cons_of_mem x ha))
    · rw [if_neg hx, if_neg (fun hc => hx ((h x (List.mem_cons_self x R)).mpr hc))]
      congr 1
      refine distinctGo_seen_congr R (x :: seen₁) (x :: seen₂) (fun a ha => ?_)
      constructor
      · intro hc
        rcases List.mem_cons.mp hc with rfl | hc'
        · exact List.mem_cons_self a _
        · exact List.mem_cons_of_mem x ((h a (List.mem_cons_of_mem x ha)).mp hc')
      · intro hc
        rcases List.mem_cons.mp hc with rfl | hc'
        · exact List.mem_cons_self a _
        · exact List.mem_cons_of_mem x ((h a (List.mem_cons_of_mem x ha)).mpr hc')

theorem chunkRuns_sorted_eq {α : Type} (f : α → String) :
    ∀ (n : Nat) (l : List α), l.length ≤ n →
      (l.map f).Pairwise (fun a b => strLeb a b = true) →
      chunkRuns f l =
        (sqlDistinct (l.map f)).map (fun k => (k, l.filter (fun r => f r == k)))
  | _, [], _, _ => by simp [chunkRuns, sqlDistinct, distinctGo]
  | 0, x :: xs, hlen, _ => by simp at hlen
  | n + 1, x :: xs, hlen, hp => by
    have key := chunkRuns_cons_eq f xs x
    have hC : xs.takeWhile (fun y => f y == f x) ++ xs.dropWhile (fun y => f y == f x) = xs :=
      List.takeWhile_append_dropWhile _ _
    have hA : ∀ z ∈ xs.takeWhile (fun y => f y == f x), f z = f x := by
      intro z hz
      have h := List.mem_takeWhile_imp hz
      exact beq_iff_eq.mp h
    have hB : ∀ z ∈ xs.dropWhile (fun y => f y == f x), f z ≠ f x :=
      pairwise_dropWhile_ne f xs x hp
    have hlen' : (xs.dropWhile (fun y => f y == f x)).length ≤ n :=
      le_trans (List.dropWhile_sublist _).length_le (Nat.le_of_succ_le_succ hlen)
    have hsorted' : ((xs.dropWhile (fun y => f y == f x)).map f).Pairwise
        (fun a b => strLeb a b = true) :=
      hp.sublist (((List.dropWhile_sublist _).trans (List.sublist_cons_self x xs)).map f)
    have IH := chunkRuns_sorted_eq f n (xs.dropWhile (fun y => f y == f x)) hlen' hsorted'
    have hdist : sqlDistinct ((x :: xs).map f) =
        f x :: sqlDistinct ((xs.dropWhile (fun y => f y == f x)).map f) := by
      show distinctGo [] (f x :: xs.map f) = _
      rw [show distinctGo ([] : List String) (f x :: xs.map f) =
        if f x ∈ ([] : List String) then distinctGo [] (xs.map f)
        else f x :: distinctGo [f x] (xs.map f) from rfl]
      rw [if_neg (List.not_mem_nil _)]
      congr 1
      have hseen : ∀ a ∈ (xs.takeWhile (fun y => f y == f x)).map f, a ∈ [f x] := by
        intro a ha
        obtain ⟨z, hz, rfl⟩ := List.mem_map.mp ha
        rw [hA z hz]
        exact List.mem_cons_self _ _
      conv_lhs => rw [← hC]
      rw [List.map_append, distinctGo_append_seen _ _ _ hseen]
      refine distinctGo_seen_congr _ _ _ (fun a ha => ?_)
      obtain ⟨z, hz, rfl⟩ := List.mem_map.mp ha
      simp [hB z hz]
    have hfilter_x : (x :: xs).filter (fun r => f r == f x) =
        x :: xs.takeWhile (fun y => f y == f x) := by
      rw [List.filter_cons, if_pos (by simp)]
      congr 1
      have ht : (xs.takeWhile (fun y => f y == f x)).filter (fun r => f r == f x) =
          xs.takeWhile (fun y => f y == f x) :=
        List.filter_eq_self.mpr (fun a ha => beq_iff_eq.mpr (hA a ha))
      have hd0 : (xs.dropWhile (fun y => f y == f x)).filter (fun r => f r == f x) = [] :=
        List.filter_eq_nil_iff.mpr (fun a ha hc => hB a ha (beq_iff_eq.mp hc))
      conv_lhs => rw [← hC]
      rw [List.filter_append, ht, hd0, List.append_nil]
    rw [key, IH, hdist, List.map_cons]
    congr 1
    · show (f x, x :: xs.takeWhile (fun y => f y == f x)) =
        (f x, (x :: xs).filter (fun r => f r == f x))
      rw [hfilter_x]
    · apply List.map_congr_left
      intro k hk
      have hkd : k ∈ (xs.dropWhile (fun y => f y == f x)).map f :=
        (mem_sqlDistinct _ _).mp hk
      obtain ⟨z0, hz0, hz0k⟩ := List.mem_map.mp hkd
      have hkx : f x ≠ k := by
        intro hc
        exact hB z0 hz0 (by rw [hz0k, ← hc])
      have htf : (xs.takeWhile (fun y => f y == f x)).filter (fun r => f r == k) = [] := by
        rw [List.filter_eq_nil_iff]
        intro a ha hc
        have haf : f a = k := beq_iff_eq.mp hc
        rw [hA a ha] at haf
        exact hkx haf
      have hfil : (x :: xs).filter (fun r => f r == k) =
          (xs.dropWhile (fun y => f y == f x)).filter (fun r => f r == k) := by
        rw [List.filter_cons, if_neg (fun hc => hkx (beq_iff_eq.mp hc))]
        conv_lhs => rw [← hC]
        rw [List.filter_append, htf, List.nil_append]
      show (k, (xs.dropWhile (fun y => f y == f x)).filter (fun r => f r == k)) =
        (k, (x :: xs).filter (fun r => f r == k))
      rw [hfil]

/-- C10: (amended) the returned mapping never contains two groups for the
same key — each returned group is one contiguous run of same-key records of
the input, so when records sharing a key are not adjacent the records of
the other runs are silently dropped (the dict comprehension overwrites the
earlier group) — and on input sorted by the key fields, groupby returns the
mapping from the '.'-joined key values, in first-seen order, to the ordered
sublist of matching records preserving their original relative order. -/
theorem C10_groupby_contract :
    (∀ record_list keys, ((groupby record_list keys).map Prod.fst).Nodup) ∧
    (∀ record_list keys e, e ∈ groupby record_list keys →
        e ∈ chunkRuns (joinKey keys) record_list) ∧
    (∀ record_list keys,
      List.Pairwise (fun a b => strLeb a b = true) (record_list.map (joinKey keys)) →
        groupby record_list keys = specGroupby record_list keys) := by
  refine ⟨fun rl keys => ?_, fun rl keys e he => ?_, fun rl keys hs => ?_⟩
  · exact foldl_dictInsert_keys_nodup (chunkRuns (joinKey keys) rl) [] (by simp)
  · rcases foldl_dictInsert_mem (chunkRuns (joinKey keys) rl) [] e he with h | h
    · exact absurd h (List.not_mem_nil e)
    · exact h
  · show groupbyKey (joinKey keys) rl = specGroupby rl keys
    unfold groupbyKey
    have hchunks := chunkRuns_sorted_eq (joinKey keys) rl.length rl le_rfl hs
    have hkeys : ((chunkRuns (joinKey keys) rl).map Prod.fst).Nodup := by
      rw [hchunks, List.map_map]
      have hid : (Prod.fst ∘ fun k =>
          (k, rl.filter (fun r => joinKey keys r == k))) = id := rfl
      rw [hid, List.map_id]
      exact nodup_sqlDistinct _
    rw [foldl_dictInsert_of_nodup _ [] (by simpa using hkeys), List.nil_append, hchunks]
    rfl

/-- C10 witness: the theorem applied at concrete inputs. -/
theorem C10_groupby_contract_witness :
    ("A", [[("k", "A"), ("v", "1")]]) ∈
      chunkRuns (joinKey ["k"]) [[("k", "A"), ("v", "1")], [("k", "B"), ("v", "2")]] ∧
    groupby [[("k", "A"), ("v", "1")], [("k", "B"), ("v", "2")]] ["k"] =
      specGroupby [[("k", "A"), ("v", "1")], [("k", "B"), ("v", "2")]] ["k"] :=
  ⟨C10_groupby_contract.2.1 [[("k", "A"), ("v", "1")], [("k", "B"), ("v", "2")]] ["k"]
      ("A", [[("k", "A"), ("v", "1")]]) (by decide),
   C10_groupby_contract.2.2 [[("k", "A"), ("v", "1")], [("k", "B"), ("v", "2")]] ["k"]
      (by decide)⟩

/-- C10 counterexample: with records keyed A, B, A (the two A-records not
adjacent), groupby does not produce multiple groups for the key "A": it
returns exactly one "A" group holding only the last run, silently dropping
the record [("k","A"),("v","1")], and the returned keys are duplicate-free. -/
theorem C10_groupby_counterexample :
    groupby [[("k", "A"), ("v", "1")], [("k", "B"), ("v", "2")],
        [("k", "A"), ("v", "3")]] ["k"] =
      [("A", [[("k", "A"), ("v", "3")]]), ("B", [[("k", "B"), ("v", "2")]])] ∧
    ((groupby [[("k", "A"), ("v", "1")], [("k", "B"), ("v", "2")],
        [("k", "A"), ("v", "3")]] ["k"]).map Prod.fst).Nodup :=
  ⟨by decide, by decide⟩

theorem nodup_filter_unique {α : Type} (p : α → Bool) :
    ∀ (l : List α) (v : α), l.Nodup → v ∈ l → p v = true →
      (∀ a ∈ l, p a = true → a = v) → l.filter p = [v]
  | [], v, _, hv, _, _ => absurd hv (List.not_mem_nil v)
  | x :: xs, v, hnd, hv, hpv, hu => by
    rcases List.mem_cons.mp hv with rfl | hv'
    · rw [List.filter_cons, if_pos hpv]
      have hnil : xs.filter p = [] := by
        rw [List.filter_eq_nil_iff]
        intro a ha hpa
        have hav : a = v := hu a (List.mem_cons_of_mem _ ha) hpa
        subst hav
        exact (List.nodup_cons.mp hnd).1 ha
      rw [hnil]
    · have hxv : x ≠ v := by
        intro h
        subst h
        exact (List.nodup_cons.mp hnd).1 hv'
      have hpx : ¬ p x = true := fun hpx => hxv (hu x (List.mem_cons_self x xs) hpx)
      rw [List.filter_cons, if_neg hpx]
      exact nodup_filter_unique p xs v (List.nodup_cons.mp hnd).2 hv' hpv
        (fun a ha hpa => hu a (List.mem_cons_of_mem _ ha) hpa)

theorem sqlDistinct_filter_unique {α : Type} [DecidableEq α] (p : α → Bool)
    (L : List α) (v : α) (hv : v ∈ L) (hpv : p v = true)
    (hu : ∀ a ∈ L, p a = true → a = v) : (sqlDistinct L).filter p = [v] :=
  nodup_filter_unique p (sqlDistinct L) v (nodup_sqlDistinct L)
    ((mem_sqlDistinct L v).mpr hv) hpv
    (fun a ha hpa => hu a ((mem_sqlDistinct L a).mp ha) hpa)

theorem mem_insertHubSelect (view : List HubViewRow) (hub : List HubRow)
    (r : HubViewRow) :
    r ∈ insertHubSelect view hub ↔ r ∈ view ∧ r.hk ∉ hubKeys hub := by
  unfold insertHubSelect
  rw [mem_sqlDistinct, List.mem_filter]
  constructor
  · rintro ⟨h1, h2⟩
    refine ⟨h1, fun hmem => ?_⟩
    simp only [Bool.not_eq_true'] at h2
    rw [show (hubKeys hub).contains r.hk = true from by simpa using hmem] at h2
    exact Bool.true_eq_false.mp h2
  · rintro ⟨h1, h2⟩
    refine ⟨h1, ?_⟩
    simp [h2]

/-- C2: the hub load inserts only rows whose hash key is absent from the
target hub (left-outer-join exclusion), de-duplicates within the run via
DISTINCT, never lets the hub hold a duplicate hash key (the primary-key
constraint rejects a colliding batch), and a second run against an
unchanged hash view inserts zero rows. -/
theorem C2_hub_load :
    ∀ (view : List HubViewRow) (hub : List HubRow) (t : Nat) (rs : String) (rid : Nat),
      (hubKeys hub).Nodup →
      (∀ r ∈ (insertHub view hub t rs rid).1, r ∈ hub ∨ r.hk ∉ hubKeys hub) ∧
      (insertHubSelect view hub).Nodup ∧
      (hubKeys (insertHub view hub t rs rid).1).Nodup ∧
      (∀ (t2 : Nat) (rs2 : String) (rid2 : Nat),
        (insertHub view (insertHub view hub t rs rid).1 t2 rs2 rid2).1 =
          (insertHub view hub t rs rid).1) := by
  intro view hub t rs rid hnd
  have hkmap : ∀ (t' : Nat) (rs' : String) (rid' : Nat) (sel : List HubViewRow),
      (sel.map (fun r => HubRow.mk r.hk t' rs' rid' r.bks)).map HubRow.hk =
        sel.map HubViewRow.hk := by
    intro t' rs' rid' sel
    rw [List.map_map]
    rfl
  have hres : ∀ (t' : Nat) (rs' : String) (rid' : Nat) (h : List HubRow),
      insertHub view h t' rs' rid' =
        if (hubKeys h ++ (insertHubSelect view h).map HubViewRow.hk).Nodup then
          (h ++ (insertHubSelect view h).map
            (fun r => HubRow.mk r.hk t' rs' rid' r.bks), false)
        else (h, true) := by
    intro t' rs' rid' h
    show (if (hubKeys h ++ ((insertHubSelect view h).map
        (fun r => HubRow.mk r.hk t' rs' rid' r.bks)).map HubRow.hk).Nodup then _ else _) = _
    rw [hkmap]
  by_cases hok : (hubKeys hub ++ (insertHubSelect view hub).map HubViewRow.hk).Nodup
  · have h1 : (insertHub view hub t rs rid).1 =
        hub ++ (insertHubSelect view hub).map (fun r => HubRow.mk r.hk t rs rid r.bks) := by
      rw [hres, if_pos hok]
    have hkeys1 : hubKeys (insertHub view hub t rs rid).1 =
        hubKeys hub ++ (insertHubSelect view hub).map HubViewRow.hk := by
      rw [h1]
      show (hub ++ _).map HubRow.hk = _
      rw [List.map_append, hkmap]
      rfl
    refine ⟨?_, nodup_sqlDistinct _, ?_, ?_⟩
    · intro r hr
      rw [h1] at hr
      rcases List.mem_append.mp hr with h | h
      · exact Or.inl h
      · obtain ⟨r0, hr0, rfl⟩ := List.mem_map.mp h
        exact Or.inr ((mem_insertHubSelect view hub r0).mp hr0).2
    · rw [hkeys1]
      exact hok
    · intro t2 rs2 rid2
      have hsel2 : insertHubSelect view (insertHub view hub t rs rid).1 = [] := by
        unfold insertHubSelect
        have hfil : view.filter
            (fun r => !(hubKeys (insertHub view hub t rs rid).1).contains r.hk) = [] := by
          rw [List.filter_eq_nil_iff]
          intro r hr hc
          simp only [Bool.not_eq_true'] at hc
          have hmem : r.hk ∈ hubKeys (insertHub view hub t rs rid).1 := by
            rw [hkeys1]
            by_cases hin : r.hk ∈ hubKeys hub
            · exact List.mem_append_left _ hin
            · refine List.mem_append_right _ ?_
              exact List.mem_map_of_mem HubViewRow.hk
                ((mem_insertHubSelect view hub r).mpr ⟨hr, hin⟩)
          rw [show (hubKeys (insertHub view hub t rs rid).1).contains r.hk = true from
            by simpa using hmem] at hc
          exact Bool.true_eq_false.mp hc
        rw [hfil]
        rfl
      rw [hres t2 rs2 rid2, hsel2]
      simp only [List.map_nil, List.append_nil]
      split <;> rfl
  · have h1 : (insertHub view hub t rs rid).1 = hub := by
      rw [hres, if_neg hok]
    refine ⟨?_, nodup_sqlDistinct _, ?_, ?_⟩
    · intro r hr
      rw [h1] at hr
      exact Or.inl hr
    · rw [h1]
      exact hnd
    · intro t2 rs2 rid2
      rw [h1, hres t2 rs2 rid2, if_neg hok]

/-- C2 witness: the theorem applied to a one-row hash view and an empty hub. -/
theorem C2_hub_load_witness :
    (hubKeys (insertHub [HubViewRow.mk "h1" ["a"]] [] 1 "src" 7).1).Nodup ∧
    (insertHub [HubViewRow.mk "h1" ["a"]]
        (insertHub [HubViewRow.mk "h1" ["a"]] [] 1 "src" 7).1 2 "src" 8).1 =
      (insertHub [HubViewRow.mk "h1" ["a"]] [] 1 "src" 7).1 :=
  ⟨(C2_hub_load [HubViewRow.mk "h1" ["a"]] [] 1 "src" 7 (by decide)).2.2.1,
   (C2_hub_load [HubViewRow.mk "h1" ["a"]] [] 1 "src" 7 (by decide)).2.2.2 2 "src" 8⟩

theorem latestStep_isSome : ∀ (acc : Option SatRow) (r : SatRow), latestStep acc r ≠ none
  | none, r => by simp [latestStep]
  | some m, r => by
    show (if m.load_dts < r.load_dts then some r else some m) ≠ none
    by_cases hc : m.load_dts < r.load_dts
    · rw [if_pos hc]; simp
    · rw [if_neg hc]; simp

theorem latestStep_cases (acc : Option SatRow) (r m1 : SatRow)
    (h : latestStep acc r = some m1) :
    (m1 = r ∧ ∀ m0, acc = some m0 → m0.load_dts ≤ m1.load_dts) ∨
      (acc = some m1 ∧ r.load_dts ≤ m1.load_dts) := by
  cases acc with
  | none =>
    left
    exact ⟨(Option.some.inj h).symm, fun m0 h0 => Option.noConfusion h0⟩
  | some m0 =>
    have h : (if m0.load_dts < r.load_dts then some r else some m0) = some m1 := h
    by_cases hc : m0.load_dts < r.load_dts
    · rw [if_pos hc] at h
      left
      refine ⟨(Option.some.inj h).symm, fun m2 h2 => ?_⟩
      have hm2 : m0 = m2 := Option.some.inj h2
      have hm1 : r = m1 := Option.some.inj h
      rw [← hm2, ← hm1]
      exact le_of_lt hc
    · rw [if_neg hc] at h
      right
      refine ⟨by rw [h], ?_⟩
      rw [← Option.some.inj h]
      exact Nat.le_of_not_lt hc

theorem latest_foldl_mem :
    ∀ (l : List SatRow) (acc : Option SatRow) (m : SatRow),
      l.foldl latestStep acc = some m → acc = some m ∨ m ∈ l
  | [], _, _, h => Or.inl h
  | r :: l, acc, m, h => by
    rcases latest_foldl_mem l (latestStep acc r) m h with h' | h'
    · rcases latestStep_cases acc r m h' with ⟨rfl, _⟩ | ⟨h2, _⟩
      · exact Or.inr (List.mem_cons_self _ _)
      · exact Or.inl h2
    · exact Or.inr (List.mem_cons_of_mem r h')

theorem latest_foldl_le :
    ∀ (l : List SatRow) (acc : Option SatRow) (m : SatRow),
      l.foldl latestStep acc = some m →
      (∀ r ∈ l, r.load_dts ≤ m.load_dts) ∧
        (∀ m0, acc = some m0 → m0.load_dts ≤ m.load_dts)
  | [], _, m, h => by
    refine ⟨fun r hr => absurd hr (List.not_mem_nil r), fun m0 h0 => ?_⟩
    rw [h0] at h
    rw [Option.some.inj h]
  | r :: l, acc, m, h => by
    have IH := latest_foldl_le l (latestStep acc r) m h
    cases hacc : latestStep acc r with
    | none => exact absurd hacc (latestStep_isSome acc r)
    | some m1 =>
      have hm1 : m1.load_dts ≤ m.load_dts := IH.2 m1 hacc
      constructor
      · intro r' hr'
        rcases List.mem_cons.mp hr' with rfl | hr''
        · rcases latestStep_cases acc r' m1 hacc with ⟨rfl, _⟩ | ⟨_, hle⟩
          · exact hm1
          · exact hle.trans hm1
        · exact IH.1 r' hr''
      · intro m0 h0
        rcases latestStep_cases acc r m1 hacc with ⟨rfl, hle⟩ | ⟨h2, _⟩
        · exact (hle m0 h0).trans hm1
        · rw [h0] at h2
          exact (Option.some.inj h2) ▸ hm1

theorem latest_foldl_some :
    ∀ (l : List SatRow) (m0 : SatRow), l.foldl latestStep (some m0) ≠ none
  | [], _ => by simp
  | r :: l, m0 => by
    show l.foldl latestStep (latestStep (some m0) r) ≠ none
    cases hs : latestStep (some m0) r with
    | none => exact absurd hs (latestStep_isSome _ _)
    | some m1 => exact latest_foldl_some l m1

theorem latestFor_none_iff (sat : List SatRow) (k : String) :
    latestFor sat k = none ↔ sat.filter (fun r => r.hk == k) = [] := by
  unfold latestFor
  cases hf : sat.filter (fun r => r.hk == k) with
  | nil => simp
  | cons r l =>
    simp only [List.foldl_cons]
    constructor
    · intro h
      exact absurd h (show l.foldl latestStep (latestStep none r) ≠ none from
        latest_foldl_some l r)
    · intro h
      exact absurd h (List.cons_ne_nil r l)

theorem latestFor_mem (sat : List SatRow) (k : String) (m : SatRow)
    (h : latestFor sat k = some m) : m ∈ sat ∧ m.hk = k := by
  unfold latestFor at h
  rcases latest_foldl_mem _ _ _ h with h' | h'
  · exact Option.noConfusion h'
  · have hm := List.mem_filter.mp h'
    exact ⟨hm.1, beq_iff_eq.mp hm.2⟩

theorem latestFor_max (sat : List SatRow) (k : String) (m : SatRow)
    (h : latestFor sat k = some m) :
    ∀ r ∈ sat, r.hk = k → r.load_dts ≤ m.load_dts := by
  intro r hr hrk
  exact (latest_foldl_le _ _ _ h).1 r (List.mem_filter.mpr ⟨hr, beq_iff_eq.mpr hrk⟩)

theorem latestFor_isSome (sat : List SatRow) (k : String) (r : SatRow)
    (hr : r ∈ sat) (hk : r.hk = k) : ∃ m, latestFor sat k = some m := by
  cases h : latestFor sat k with
  | some m => exact ⟨m, rfl⟩
  | none =>
    exfalso
    have hnil := (latestFor_none_iff sat k).mp h
    have hmem : r ∈ sat.filter (fun x => x.hk == k) :=
      List.mem_filter.mpr ⟨hr, beq_iff_eq.mpr hk⟩
    rw [hnil] at hmem
    exact absurd hmem (List.not_mem_nil r)

theorem latestFor_congr (sat sat' : List SatRow) (k : String)
    (h : sat.filter (fun r => r.hk == k) = sat'.filter (fun r => r.hk == k)) :
    latestFor sat k = latestFor sat' k := by
  unfold latestFor
  rw [h]

theorem latestFor_append_right_nil (sat D : List SatRow) (k : String)
    (h : D.filter (fun r => r.hk == k) = []) :
    latestFor (sat ++ D) k = latestFor sat k := by
  unfold latestFor
  rw [List.filter_append, h, List.append_nil]

theorem latestFor_append_max (sat D : List SatRow) (k : String) (r : SatRow)
    (hD : D.filter (fun x => x.hk == k) = [r])
    (hmax : ∀ x ∈ sat, x.load_dts < r.load_dts) :
    latestFor (sat ++ D) k = some r := by
  unfold latestFor
  rw [List.filter_append, hD, List.foldl_append]
  cases hacc : (sat.filter fun x => x.hk == k).foldl latestStep none with
  | none => rfl
  | some m0 =>
    have hm0 : m0 ∈ sat := by
      rcases latest_foldl_mem _ _ _ hacc with h' | h'
      · exact Option.noConfusion h'
      · exact (List.mem_filter.mp h').1
    show latestStep (some m0) r = some r
    have hlt := hmax m0 hm0
    show (if m0.load_dts < r.load_dts then some r else some m0) = some r
    rw [if_pos hlt]

theorem mem_latestRows (sat : List SatRow) (m : SatRow) :
    m ∈ latestRows sat ↔ ∃ k, k ∈ satKeys sat ∧ latestFor sat k = some m := by
  unfold latestRows
  exact List.mem_filterMap

theorem mem_satKeys (sat : List SatRow) (k : String) :
    k ∈ satKeys sat ↔ ∃ r ∈ sat, r.hk = k := by
  unfold satKeys
  rw [mem_sqlDistinct]
  constructor
  · intro h
    obtain ⟨r, hr, hk⟩ := List.mem_map.mp h
    exact ⟨r, hr, hk⟩
  · rintro ⟨r, hr, hk⟩
    exact hk ▸ List.mem_map_of_mem SatRow.hk hr

theorem latestRows_filter_key (sat : List SatRow) (k : String) (m : SatRow)
    (h : latestFor sat k = some m) :
    (latestRows sat).filter (fun r => r.hk == k) = [m] := by
  have hkmem : k ∈ satKeys sat :=
    (mem_satKeys sat k).mpr ⟨m, (latestFor_mem sat k m h).1, (latestFor_mem sat k m h).2⟩
  have hnd : (satKeys sat).Nodup := nodup_sqlDistinct _
  unfold latestRows
  suffices haux : ∀ ks : List String, ks.Nodup → k ∈ ks →
      (ks.filterMap (latestFor sat)).filter (fun r => r.hk == k) = [m] by
    exact haux (satKeys sat) hnd hkmem
  intro ks
  induction ks with
  | nil =>
    intro _ hk
    exact absurd hk (List.not_mem_nil k)
  | cons k' ks ih =>
    intro hnd' hkmem'
    rcases List.mem_cons.mp hkmem' with rfl | hk'
    · simp only [List.filterMap_cons, h]
      rw [List.filter_cons, if_pos (beq_iff_eq.mpr (latestFor_mem sat k m h).2)]
      have hrest : (ks.filterMap (latestFor sat)).filter (fun r => r.hk == k) = [] := by
        rw [List.filter_eq_nil_iff]
        intro a ha hpa
        obtain ⟨k'', hk'', ha'⟩ := List.mem_filterMap.mp ha
        have hak : a.hk = k'' := (latestFor_mem sat k'' a ha').2
        have hne : k'' ≠ k := fun hc => (List.nodup_cons.mp hnd').1 (hc ▸ hk'')
        exact hne (by rw [← hak, beq_iff_eq.mp hpa])
      rw [hrest]
    · have hk'k : k' ≠ k := fun hc => (List.nodup_cons.mp hnd').1 (hc ▸ hk')
      cases hl : latestFor sat k' with
      | none =>
        simp only [List.filterMap_cons, hl]
        exact ih (List.nodup_cons.mp hnd').2 hk'
      | some m' =>
        simp only [List.filterMap_cons, hl]
        rw [List.filter_cons, if_neg ?_]
        · exact ih (List.nodup_cons.mp hnd').2 hk'
        · intro hc
          have hmk : m'.hk = k' := (latestFor_mem sat k' m' hl).2
          exact hk'k (by rw [← hmk, beq_iff_eq.mp hc])

theorem latestRows_nodup (sat : List SatRow) : (latestRows sat).Nodup := by
  unfold latestRows
  refine List.Nodup.filterMap ?_ (nodup_sqlDistinct _)
  intro k k' b h1 h2
  have e1 : b.hk = k := (latestFor_mem sat k b h1).2
  have e2 : b.hk = k' := (latestFor_mem sat k' b h2).2
  rw [← e1, e2]

/-- C5: the generated current-value view returns exactly one row per hash
key present in the satellite; that row is a satellite row whose load
timestamp is maximal among the rows of its key (row_number 1 partitioned by
hash key, ordered by load timestamp descending), with no condition on its
delete flag. -/
theorem C5_current_view :
    ∀ sat : List SatRow,
      (∀ r ∈ currentView sat, r ∈ sat) ∧
      (∀ k, (∃ r ∈ sat, r.hk = k) →
        ∃! r, r ∈ currentView sat ∧ r.hk = k) ∧
      (∀ r ∈ currentView sat, ∀ r2 ∈ sat, r2.hk = r.hk → r2.load_dts ≤ r.load_dts) := by
  intro sat
  refine ⟨?_, ?_, ?_⟩
  · intro r hr
    obtain ⟨k, _, h⟩ := (mem_latestRows sat r).mp hr
    exact (latestFor_mem sat k r h).1
  · rintro k ⟨r0, hr0, hk0⟩
    obtain ⟨m, hm⟩ := latestFor_isSome sat k r0 hr0 hk0
    refine ⟨m, ⟨?_, (latestFor_mem sat k m hm).2⟩, ?_⟩
    · exact (mem_latestRows sat m).mpr ⟨k, (mem_satKeys sat k).mpr ⟨r0, hr0, hk0⟩, hm⟩
    · rintro r' ⟨hr', hk'⟩
      have hfil := latestRows_filter_key sat k m hm
      have hmem : r' ∈ (latestRows sat).filter (fun x => x.hk == k) :=
        List.mem_filter.mpr ⟨hr', beq_iff_eq.mpr hk'⟩
      rw [hfil] at hmem
      exact List.mem_singleton.mp hmem
  · intro r hr r2 hr2 hk2
    obtain ⟨k, _, h⟩ := (mem_latestRows sat r).mp hr
    have hrk : r.hk = k := (latestFor_mem sat k r h).2
    exact latestFor_max sat k r h r2 hr2 (by rw [hk2, hrk])

/-- C5 witness: the theorem applied to a two-version one-key satellite. -/
theorem C5_current_view_witness :
    ∃! r, r ∈ currentView [SatRow.mk "k1" 1 false "d1" "s" 1 [],
        SatRow.mk "k1" 2 true "d2" "s" 2 []] ∧ r.hk = "k1" :=
  (C5_current_view [SatRow.mk "k1" 1 false "d1" "s" 1 [],
      SatRow.mk "k1" 2 true "d2" "s" 2 []]).2.1 "k1"
    ⟨SatRow.mk "k1" 1 false "d1" "s" 1 [], by decide, rfl⟩

/-- C3: a staging row is inserted as a new satellite version iff the most
recent existing version for its hash key (ORDER BY load timestamp DESC
LIMIT 1) does not have both an identical hash-diff and delete flag false;
hence loading the same payload for a key across two runs stores exactly one
version, while a payload whose hash-diff differs from the latest version's
(including a reverted value — only the latest version is compared) appends
exactly one new version with delete flag false. -/
theorem C3_sat_delta_load :
    ∀ (view : List SatViewRow) (sat : List SatRow) (t : Nat) (rs : String) (rid : Nat),
      (∀ src, src ∈ satNewCandidates view sat ↔
        src ∈ view ∧ ∀ m, latestFor sat src.hk = some m →
          ¬ (m.hash_diff = src.hash_diff ∧ m.del_flag = false)) ∧
      (∀ (k : String) (v : SatViewRow) (t2 : Nat) (rs2 : String) (rid2 : Nat),
        v ∈ view → v.hk = k → (∀ s ∈ view, s.hk = k → s = v) →
        (∀ r ∈ sat, r.hk ≠ k) →
        (insertSatNew view (insertSatNew view sat t rs rid) t2 rs2 rid2).filter
            (fun r => r.hk == k) =
          [SatRow.mk k t false v.hash_diff rs rid v.attrs]) ∧
      (∀ (k : String) (v : SatViewRow) (m : SatRow),
        v ∈ view → v.hk = k → (∀ s ∈ view, s.hk = k → s = v) →
        latestFor sat k = some m → m.hash_diff ≠ v.hash_diff →
        (insertSatNew view sat t rs rid).filter (fun r => r.hk == k) =
          sat.filter (fun r => r.hk == k) ++
            [SatRow.mk k t false v.hash_diff rs rid v.attrs]) := by
  intro view sat t rs rid
  refine ⟨?_, ?_, ?_⟩
  · intro src
    unfold satNewCandidates
    rw [mem_sqlDistinct, List.mem_filter]
    constructor
    · rintro ⟨hv, hf⟩
      refine ⟨hv, fun m hm => ?_⟩
      intro hcon
      simp [satNewFilter, hm, hcon.1, hcon.2] at hf
    · rintro ⟨hv, himp⟩
      refine ⟨hv, ?_⟩
      cases hl : latestFor sat src.hk with
      | none => simp [satNewFilter, hl]
      | some m =>
        have hm := himp m hl
        simp only [satNewFilter, hl, Bool.not_eq_true', Bool.and_eq_false_iff]
        by_cases hd : m.hash_diff = src.hash_diff
        · right
          by_cases hdel : m.del_flag = false
          · exact absurd ⟨hd, hdel⟩ hm
          · simp [Bool.not_eq_false] at hdel
            simp [hdel]
        · left
          simp [hd]
  · intro k v t2 rs2 rid2 hv hvk huniq hnone
    have hsatnil : sat.filter (fun r => r.hk == k) = [] := by
      rw [List.filter_eq_nil_iff]
      intro r hr hc
      exact hnone r hr (beq_iff_eq.mp hc)
    have hl0 : latestFor sat k = none := (latestFor_none_iff sat k).mpr hsatnil
    have hcand : (satNewCandidates view sat).filter (fun s => s.hk == k) = [v] := by
      refine sqlDistinct_filter_unique _ _ v ?_ (beq_iff_eq.mpr hvk) ?_
      · refine List.mem_filter.mpr ⟨hv, ?_⟩
        simp [satNewFilter, hvk, hl0]
      · intro a ha hak
        exact huniq a (List.mem_filter.mp ha).1 (beq_iff_eq.mp hak)
    have hs1 : (insertSatNew view sat t rs rid).filter (fun r => r.hk == k) =
        [SatRow.mk k t false v.hash_diff rs rid v.attrs] := by
      unfold insertSatNew
      rw [List.filter_append, hsatnil, List.nil_append]
      rw [List.filter_map]
      rw [show ((fun r : SatRow => r.hk == k) ∘
        (fun r : SatViewRow => SatRow.mk r.hk t false r.hash_diff rs rid r.attrs)) =
          (fun s : SatViewRow => s.hk == k) from rfl]
      rw [show (satNewCandidates view sat).filter (fun s : SatViewRow => s.hk == k) = [v]
        from hcand]
      simp [hvk]
    have hl1 : latestFor (insertSatNew view sat t rs rid) k =
        some (SatRow.mk k t false v.hash_diff rs rid v.attrs) := by
      unfold latestFor
      rw [hs1]
      rfl
    show (insertSatNew view (insertSatNew view sat t rs rid) t2 rs2 rid2).filter
      (fun r => r.hk == k) = _
    unfold insertSatNew
    rw [List.filter_append]
    have hnil2 : (((satNewCandidates view
        (sat ++ (satNewCandidates view sat).map
          (fun r => SatRow.mk r.hk t false r.hash_diff rs rid r.attrs))).map
        (fun r => SatRow.mk r.hk t2 false r.hash_diff rs2 rid2 r.attrs)).filter
        (fun r => r.hk == k)) = [] := by
      rw [List.filter_map]
      rw [show ((fun r : SatRow => r.hk == k) ∘
        (fun r : SatViewRow => SatRow.mk r.hk t2 false r.hash_diff rs2 rid2 r.attrs)) =
          (fun s : SatViewRow => s.hk == k) from rfl]
      rw [show (satNewCandidates view
        (sat ++ (satNewCandidates view sat).map
          (fun r => SatRow.mk r.hk t false r.hash_diff rs rid r.attrs))).filter
          (fun s : SatViewRow => s.hk == k) = ([] : List SatViewRow) from ?_, List.map_nil]
      unfold satNewCandidates
      rw [List.filter_eq_nil_iff]
      intro a ha hak
      have ha' := (mem_sqlDistinct _ _).mp ha
      have hmem := List.mem_filter.mp ha'
      have hav : a = v := huniq a hmem.1 (beq_iff_eq.mp hak)
      subst hav
      have hfalse : satNewFilter (insertSatNew view sat t rs rid) a = false := by
        simp [satNewFilter, hvk, hl1]
      have h3 : satNewFilter (insertSatNew view sat t rs rid) a = true := hmem.2
      rw [hfalse] at h3
      exact Bool.noConfusion h3
    rw [show ((sat ++ (satNewCandidates view sat).map
      (fun r => SatRow.mk r.hk t false r.hash_diff rs rid r.attrs)).filter
        (fun r => r.hk == k)) = [SatRow.mk k t false v.hash_diff rs rid v.attrs]
      from hs1, hnil2, List.append_nil]
  · intro k v m hv hvk huniq hm hne
    have hcand : (satNewCandidates view sat).filter (fun s => s.hk == k) = [v] := by
      refine sqlDistinct_filter_unique _ _ v ?_ (beq_iff_eq.mpr hvk) ?_
      · refine List.mem_filter.mpr ⟨hv, ?_⟩
        simp [satNewFilter, hvk, hm, hne]
      · intro a ha hak
        exact huniq a (List.mem_filter.mp ha).1 (beq_iff_eq.mp hak)
    unfold insertSatNew
    rw [List.filter_append]
    congr 1
    rw [List.filter_map]
    rw [show ((fun r : SatRow => r.hk == k) ∘
      (fun r : SatViewRow => SatRow.mk r.hk t false r.hash_diff rs rid r.attrs)) =
        (fun s : SatViewRow => s.hk == k) from rfl]
    rw [show (satNewCandidates view sat).filter (fun s : SatViewRow => s.hk == k) = [v]
      from hcand]
    simp [hvk]

/-- C3 witness: the theorem applied to a one-row view, loaded twice into an
empty satellite, and to a satellite whose latest version has a different
hash-diff. -/
theorem C3_sat_delta_load_witness :
    (insertSatNew [SatViewRow.mk "k1" "d1" ["p"]]
        (insertSatNew [SatViewRow.mk "k1" "d1" ["p"]] [] 1 "s" 1) 2 "s" 2).filter
        (fun r => r.hk == "k1") =
      [SatRow.mk "k1" 1 false "d1" "s" 1 ["p"]] ∧
    (insertSatNew [SatViewRow.mk "k1" "d1" ["p"]]
        [SatRow.mk "k1" 1 false "d0" "s" 1 ["q"]] 2 "s" 2).filter
        (fun r => r.hk == "k1") =
      [SatRow.mk "k1" 1 false "d0" "s" 1 ["q"]].filter (fun r => r.hk == "k1") ++
        [SatRow.mk "k1" 2 false "d1" "s" 2 ["p"]] :=
  ⟨(C3_sat_delta_load [SatViewRow.mk "k1" "d1" ["p"]] [] 1 "s" 1).2.1 "k1"
      (SatViewRow.mk "k1" "d1" ["p"]) 2 "s" 2 (by decide) rfl (by decide) (by decide),
   (C3_sat_delta_load [SatViewRow.mk "k1" "d1" ["p"]]
      [SatRow.mk "k1" 1 false "d0" "s" 1 ["q"]] 2 "s" 2).2.2 "k1"
      (SatViewRow.mk "k1" "d1" ["p"]) (SatRow.mk "k1" 1 false "d0" "s" 1 ["q"])
      (by decide) rfl (by decide) (by decide) (by decide)⟩

theorem satDeleteCandidates_eq (view : List SatViewRow) (sat : List SatRow) :
    satDeleteCandidates view sat = (latestRows sat).filter
      (fun m => m.del_flag == false && !(view.any (fun s => s.hk == m.hk))) :=
  sqlDistinct_eq_self _ ((latestRows_nodup sat).filter _)

theorem satDelete_map_filter_key (view : List SatViewRow) (sat : List SatRow)
    (t : Nat) (rs : String) (rid : Nat) (k : String) (m : SatRow)
    (hm : latestFor sat k = some m) :
    ((satDeleteCandidates view sat).map
        (fun x => SatRow.mk x.hk t true x.hash_diff rs rid x.attrs)).filter
      (fun r => r.hk == k) =
    (if (m.del_flag == false && !(view.any (fun s => s.hk == m.hk))) = true then
      [SatRow.mk k t true m.hash_diff rs rid m.attrs] else []) := by
  rw [satDeleteCandidates_eq, List.filter_map]
  rw [show ((fun r : SatRow => r.hk == k) ∘
    (fun x : SatRow => SatRow.mk x.hk t true x.hash_diff rs rid x.attrs)) =
      (fun x : SatRow => x.hk == k) from rfl]
  rw [List.filter_filter]
  have hmk : m.hk = k := (latestFor_mem sat k m hm).2
  have huniq : ∀ a ∈ latestRows sat, (a.hk == k) = true → a = m := by
    intro a ha hpa
    obtain ⟨k2, _, ha'⟩ := (mem_latestRows sat a).mp ha
    have hak : a.hk = k2 := (latestFor_mem sat k2 a ha').2
    have hkk : k2 = k := by rw [← hak, beq_iff_eq.mp hpa]
    subst hkk
    exact Option.some.inj (ha'.symm.trans hm)
  by_cases helig : (m.del_flag == false && !(view.any (fun s => s.hk == m.hk))) = true
  · rw [if_pos helig]
    have hfil : (latestRows sat).filter
        (fun a => (a.hk == k) && (a.del_flag == false &&
          !(view.any (fun s => s.hk == a.hk)))) = [m] := by
      apply nodup_filter_unique _ _ m (latestRows_nodup sat)
      · exact (mem_latestRows sat m).mpr
          ⟨k, (mem_satKeys sat k).mpr ⟨m, (latestFor_mem sat k m hm).1, hmk⟩, hm⟩
      · rw [Bool.and_eq_true]
        exact ⟨beq_iff_eq.mpr hmk, helig⟩
      · intro a ha hpa
        rw [Bool.and_eq_true] at hpa
        exact huniq a ha hpa.1
    rw [hfil]
    simp [hmk]
  · rw [if_neg helig]
    have hfil : (latestRows sat).filter
        (fun a => (a.hk == k) && (a.del_flag == false &&
          !(view.any (fun s => s.hk == a.hk)))) = [] := by
      rw [List.filter_eq_nil_iff]
      intro a ha hpa
      rw [Bool.and_eq_true] at hpa
      have ham : a = m := huniq a ha hpa.1
      subst ham
      exact helig hpa.2
    rw [hfil]
    rfl

/-- C4: for a full-extract satellite, every hash key whose most recent
stored version has delete flag false and which is absent from the hash view
receives exactly one appended delete version (delete flag true, hash-diff
and attributes carried forward from that latest version); with the run's
load timestamp later than all stored ones, re-running the reconciliation
with the view unchanged appends nothing. -/
theorem C4_sat_full_delete :
    ∀ (view : List SatViewRow) (sat : List SatRow) (t : Nat) (rs : String) (rid : Nat),
      (∀ (k : String) (m : SatRow), latestFor sat k = some m → m.del_flag = false →
        (∀ s ∈ view, s.hk ≠ k) →
        (insertSatDelete view sat t rs rid).filter (fun r => r.hk == k) =
          sat.filter (fun r => r.hk == k) ++
            [SatRow.mk k t true m.hash_diff rs rid m.attrs]) ∧
      ((∀ r ∈ sat, r.load_dts < t) → ∀ (t2 : Nat) (rs2 : String) (rid2 : Nat),
        insertSatDelete view (insertSatDelete view sat t rs rid) t2 rs2 rid2 =
          insertSatDelete view sat t rs rid) := by
  intro view sat t rs rid
  constructor
  · intro k m hm hdel habs
    show (sat ++ (satDeleteCandidates view sat).map
      (fun x => SatRow.mk x.hk t true x.hash_diff rs rid x.attrs)).filter
        (fun r => r.hk == k) = _
    rw [List.filter_append, satDelete_map_filter_key view sat t rs rid k m hm]
    have hany : (view.any (fun s => s.hk == m.hk)) = false := by
      rw [List.any_eq_false]
      intro s hs
      rw [(latestFor_mem sat k m hm).2]
      intro hc
      exact habs s hs (beq_iff_eq.mp hc)
    rw [if_pos (by rw [hdel, hany]; rfl)]
  · intro hmax t2 rs2 rid2
    have hnil : satDeleteCandidates view (insertSatDelete view sat t rs rid) = [] := by
      rw [satDeleteCandidates_eq, List.filter_eq_nil_iff]
      intro m2 hm2 hq2
      obtain ⟨k2, hk2keys, hl2⟩ := (mem_latestRows _ m2).mp hm2
      have hm2k : m2.hk = k2 := (latestFor_mem _ k2 m2 hl2).2
      have hrow : ∃ r ∈ sat, r.hk = k2 := by
        obtain ⟨r2, hr2, hr2k⟩ := (mem_satKeys _ k2).mp hk2keys
        rcases List.mem_append.mp hr2 with h | h
        · exact ⟨r2, h, hr2k⟩
        · obtain ⟨x, hx, rfl⟩ := List.mem_map.mp h
          rw [satDeleteCandidates_eq] at hx
          have hx' := List.mem_filter.mp hx
          obtain ⟨kx, _, hlx⟩ := (mem_latestRows sat x).mp hx'.1
          exact ⟨x, (latestFor_mem sat kx x hlx).1, hr2k⟩
      obtain ⟨r0, hr0, hr0k⟩ := hrow
      obtain ⟨m0, hm0⟩ := latestFor_isSome sat k2 r0 hr0 hr0k
      have hDk := satDelete_map_filter_key view sat t rs rid k2 m0 hm0
      by_cases helig : (m0.del_flag == false && !(view.any (fun s => s.hk == m0.hk))) = true
      · rw [if_pos helig] at hDk
        have hlat2 : latestFor (sat ++ (satDeleteCandidates view sat).map
            (fun x => SatRow.mk x.hk t true x.hash_diff rs rid x.attrs)) k2 =
            some (SatRow.mk k2 t true m0.hash_diff rs rid m0.attrs) :=
          latestFor_append_max sat _ k2 _ hDk (fun x hx => hmax x hx)
        have hm2eq : m2 = SatRow.mk k2 t true m0.hash_diff rs rid m0.attrs :=
          Option.some.inj (hl2.symm.trans hlat2)
        rw [hm2eq] at hq2
        simp at hq2
      · rw [if_neg helig] at hDk
        have hlat2 : latestFor (sat ++ (satDeleteCandidates view sat).map
            (fun x => SatRow.mk x.hk t true x.hash_diff rs rid x.attrs)) k2 =
            latestFor sat k2 :=
          latestFor_append_right_nil sat _ k2 hDk
        have hm2eq : m2 = m0 := Option.some.inj ((hl2.symm.trans hlat2).trans hm0)
        rw [hm2eq] at hq2
        exact helig hq2
    show (insertSatDelete view sat t rs rid) ++
      (satDeleteCandidates view (insertSatDelete view sat t rs rid)).map
        (fun x => SatRow.mk x.hk t2 true x.hash_diff rs2 rid2 x.attrs) = _
    rw [hnil]
    simp

/-- C4 witness: the theorem applied to a one-version satellite whose key is
absent from an empty hash view, reconciled twice. -/
theorem C4_sat_full_delete_witness :
    (insertSatDelete [] [SatRow.mk "k1" 1 false "d1" "s" 1 ["a"]] 2 "s" 2).filter
        (fun r => r.hk == "k1") =
      [SatRow.mk "k1" 1 false "d1" "s" 1 ["a"]].filter (fun r => r.hk == "k1") ++
        [SatRow.mk "k1" 2 true "d1" "s" 2 ["a"]] ∧
    insertSatDelete []
        (insertSatDelete [] [SatRow.mk "k1" 1 false "d1" "s" 1 ["a"]] 2 "s" 2) 3 "s" 3 =
      insertSatDelete [] [SatRow.mk "k1" 1 false "d1" "s" 1 ["a"]] 2 "s" 2 :=
  ⟨(C4_sat_full_delete [] [SatRow.mk "k1" 1 false "d1" "s" 1 ["a"]] 2 "s" 2).1 "k1"
      (SatRow.mk "k1" 1 false "d1" "s" 1 ["a"]) (by decide) rfl (by decide),
   (C4_sat_full_delete [] [SatRow.mk "k1" 1 false "d1" "s" 1 ["a"]] 2 "s" 2).2
      (by decide) 3 "s" 3⟩

theorem create_sat_foldl (gs : List (String × List TableRecord)) :
    ∀ acc : List String × List (String × String),
      gs.foldl (fun acc kg =>
        if (satGroupHkList kg.2).length ≠ 1 then
          (acc.1, acc.2 ++ [(satGroupSql kg.1 kg.2, satGroupError kg.1)])
        else (acc.1 ++ [satGroupSql kg.1 kg.2], acc.2)) acc =
      (acc.1 ++ ((gs.filter (fun kg => (satGroupHkList kg.2).length == 1)).map
          (fun kg => satGroupSql kg.1 kg.2)),
        acc.2 ++ ((gs.filter (fun kg => !((satGroupHkList kg.2).length == 1))).map
          (fun kg => (satGroupSql kg.1 kg.2, satGroupError kg.1)))) := by
  induction gs with
  | nil => intro acc; simp
  | cons g gs ih =>
    intro acc
    by_cases hg : (satGroupHkList g.2).length = 1
    · have hb : ((satGroupHkList g.2).length == 1) = true := beq_iff_eq.mpr hg
      rw [List.foldl_cons, if_neg (fun h => h hg), ih]
      simp only [List.filter_cons]
      rw [hb]
      simp [List.append_assoc]
    · have hb : ((satGroupHkList g.2).length == 1) = false := beq_eq_false_iff_ne.mpr hg
      rw [List.foldl_cons, if_pos hg, ih]
      simp only [List.filter_cons]
      rw [hb]
      simp [List.append_assoc]

/-- C6: a satellite metadata group has its DDL executed iff it has exactly
one hash-key column; a group with zero or several hash-key columns is
skipped — its statement is never submitted to the engine — and the
validation error is recorded in the returned error list instead. -/
theorem C6_create_sat_validation :
    ∀ raw_sat_records : List TableRecord,
      (create_sat_from_metadata raw_sat_records).1 =
        (((groupbyKey (fun r => r.rel_type ++ "." ++ r.base_name) raw_sat_records).filter
          (fun kg => (satGroupHkList kg.2).length == 1)).map
            (fun kg => satGroupSql kg.1 kg.2)) ∧
      (create_sat_from_metadata raw_sat_records).2 =
        (((groupbyKey (fun r => r.rel_type ++ "." ++ r.base_name) raw_sat_records).filter
          (fun kg => !((satGroupHkList kg.2).length == 1))).map
            (fun kg => (satGroupSql kg.1 kg.2, satGroupError kg.1))) := by
  intro raw
  unfold create_sat_from_metadata
  rw [create_sat_foldl]
  constructor <;> rfl

/-- C8: with a file path and force not set, when a success run-history
record already exists for the (source table, file path) pair, execute_flow
returns an empty error list at once: the only effect performed is the
ingestion check — no staging, hash, hub, link or satellite stage runs and
no run-history record (start or terminal) is written. -/
theorem C8_flow_noop :
    ∀ (env : FlowEnv) (source_table record_source f : String),
      env.already_ingested = true →
      execute_flow env source_table record_source (some f) false =
        Except.ok ([], [FlowEvent.checkIngestion source_table f]) := by
  intro env st rsrc f h
  unfold execute_flow
  simp [h]

/-- C8 witness: the theorem applied to a concrete environment. -/
theorem C8_flow_noop_witness :
    execute_flow (FlowEnv.mk true 3 [("s", "e")] (Except.ok []) [] [] [])
        "customer" "src" (some "f.csv") false =
      Except.ok ([], [FlowEvent.checkIngestion "customer" "f.csv"]) :=
  C8_flow_noop (FlowEnv.mk true 3 [("s", "e")] (Except.ok []) [] [] [])
    "customer" "src" "f.csv" rfl

/-- C7: with transition metadata whose link_to_hub_reference (`ll`) record
names a group ("missing") absent from the hub (`bk`) groups, the hash-view
computation raises an uncaught KeyError instead of reporting the failure in
its returned error list, and the exception crosses execute_flow's public
boundary: the flow returns no error list at all. -/
theorem C7_link_reference_keyerror :
    compute_hash_view_hashes
        [TransitionRecord.mk "stg_x" "id" "hub_customer" "id_bk" "customer" 1 false
          none "bk",
         TransitionRecord.mk "stg_x" "missing" "link_l" "customer_hk" "lnk1" 1 false
          none "ll"] =
      Except.error "KeyError: missing" ∧
    execute_flow
        (FlowEnv.mk false 1 []
          (hashStageResult
            [TransitionRecord.mk "stg_x" "id" "hub_customer" "id_bk" "customer" 1 false
              none "bk",
             TransitionRecord.mk "stg_x" "missing" "link_l" "customer_hk" "lnk1" 1 false
              none "ll"])
          [] [] [])
        "stg_x" "src" none false =
      Except.error "KeyError: missing" :=
  ⟨rfl, rfl⟩

theorem pyTruncate_length (s : String) (n : Nat) : (pyTruncate s n).length ≤ n := by
  unfold pyTruncate
  show (s.data.take n).length ≤ n
  rw [List.length_take]
  exact min_le_left n s.data.length

theorem run_end_message_length (e : List (String × String)) :
    (run_end_message e).length ≤ 4095 := by
  unfold run_end_message
  by_cases h : e.isEmpty
  · rw [if_pos h]
    exact pyTruncate_length _ _
  · rw [if_neg h]
    exact pyTruncate_length _ _

theorem flowPrefix_no_load_stages (st : String) (rid : Nat) (fp : Option String)
    (fl : Bool) :
    FlowEvent.stageHash ∉ flowPrefix st rid fp fl ∧
    FlowEvent.stageHub ∉ flowPrefix st rid fp fl ∧
    FlowEvent.stageLink ∉ flowPrefix st rid fp fl ∧
    FlowEvent.stageSat ∉ flowPrefix st rid fp fl := by
  unfold flowPrefix
  by_cases h1 : (!fl && fp.isSome) = true <;>
    by_cases h2 : fp.isSome = true <;>
      simp [h1, h2]

theorem not_mem_append_of {α : Type} {a : α} {l1 l2 : List α}
    (h1 : a ∉ l1) (h2 : a ∉ l2) : a ∉ l1 ++ l2 := by
  intro h
  rcases List.mem_append.mp h with h | h
  · exact h1 h
  · exact h2 h

/-- C9: when a stage among staging, hash view, hub load, link load returns
a non-empty error list, execute_flow performs no later stage, writes one
terminal failure run-history record whose message carries the error count
truncated to at most 4095 characters, returns the accumulated errors, and
keeps (does not roll back) the effects of the prior successful stages. -/
theorem C9_flow_short_circuit :
    ∀ (env : FlowEnv) (source_table record_source : String)
      (file_path : Option String) (force_load : Bool),
      (!force_load && file_path.isSome && env.already_ingested) = false →
      (∀ e : List (String × String), (run_end_message e).length ≤ 4095) ∧
      (∀ f, file_path = some f → env.staging_errors ≠ [] →
        ∀ E, E = flowPrefix source_table env.next_run_id file_path force_load ++
          [FlowEvent.registerRun source_table env.next_run_id file_path "failure"
            (run_end_message env.staging_errors)] →
        execute_flow env source_table record_source file_path force_load =
            Except.ok (env.staging_errors, E) ∧
          FlowEvent.stageHash ∉ E ∧ FlowEvent.stageHub ∉ E ∧
          FlowEvent.stageLink ∉ E ∧ FlowEvent.stageSat ∉ E) ∧
      (∀ hashErrs, env.hash_result = Except.ok hashErrs →
        (file_path = none ∨ env.staging_errors = []) → hashErrs ≠ [] →
        ∀ E, E = flowPrefix source_table env.next_run_id file_path force_load ++
          [FlowEvent.stageHash,
           FlowEvent.registerRun source_table env.next_run_id file_path "failure"
             (run_end_message hashErrs)] →
        execute_flow env source_table record_source file_path force_load =
            Except.ok (hashErrs, E) ∧
          FlowEvent.stageHub ∉ E ∧ FlowEvent.stageLink ∉ E ∧ FlowEvent.stageSat ∉ E ∧
          FlowEvent.stageHash ∈ E) ∧
      (env.hash_result = Except.ok [] → (file_path = none ∨ env.staging_errors = []) →
        env.hub_errors ≠ [] →
        ∀ E, E = flowPrefix source_table env.next_run_id file_path force_load ++
          [FlowEvent.stageHash, FlowEvent.stageHub,
           FlowEvent.registerRun source_table env.next_run_id file_path "failure"
             (run_end_message env.hub_errors)] →
        execute_flow env source_table record_source file_path force_load =
            Except.ok (env.hub_errors, E) ∧
          FlowEvent.stageLink ∉ E ∧ FlowEvent.stageSat ∉ E ∧ FlowEvent.stageHash ∈ E) ∧
      (env.hash_result = Except.ok [] → (file_path = none ∨ env.staging_errors = []) →
        env.hub_errors = [] → env.link_errors ≠ [] →
        ∀ E, E = flowPrefix source_table env.next_run_id file_path force_load ++
          [FlowEvent.stageHash, FlowEvent.stageHub, FlowEvent.stageLink,
           FlowEvent.registerRun source_table env.next_run_id file_path "failure"
             (run_end_message env.link_errors)] →
        execute_flow env source_table record_source file_path force_load =
            Except.ok (env.link_errors, E) ∧
          FlowEvent.stageSat ∉ E ∧ FlowEvent.stageHub ∈ E) := by
  intro env st rsrc file force hsc
  have hfp := flowPrefix_no_load_stages st env.next_run_id file force
  refine ⟨run_end_message_length, ?_, ?_, ?_, ?_⟩
  · intro f hf hse E hE
    subst hE
    subst hf
    have hse' : env.staging_errors.isEmpty = false := by
      cases henv : env.staging_errors with
      | nil => exact absurd henv hse
      | cons a l => rfl
    refine ⟨?_, not_mem_append_of hfp.1 (by simp),
      not_mem_append_of hfp.2.1 (by simp), not_mem_append_of hfp.2.2.1 (by simp),
      not_mem_append_of hfp.2.2.2 (by simp)⟩
    cases force with
    | false =>
      cases hing : env.already_ingested with
      | false => simp [execute_flow, flowPrefix, hing, hse']
      | true => rw [hing] at hsc; simp at hsc
    | true => simp [execute_flow, flowPrefix, hse']
  · intro hashErrs hhash hstg hne E hE
    subst hE
    have hne' : hashErrs.isEmpty = false := by
      cases henv : hashErrs with
      | nil => exact absurd henv hne
      | cons a l => rfl
    refine ⟨?_, not_mem_append_of hfp.2.1 (by simp),
      not_mem_append_of hfp.2.2.1 (by simp), not_mem_append_of hfp.2.2.2 (by simp),
      List.mem_append_right _ (by simp)⟩
    rcases hstg with rfl | hstg0
    · simp [execute_flow, flowPrefix, hhash, hne']
    · cases file with
      | none => simp [execute_flow, flowPrefix, hhash, hne']
      | some f =>
        cases force with
        | false =>
          cases hing : env.already_ingested with
          | false => simp [execute_flow, flowPrefix, hing, hstg0, hhash, hne']
          | true => rw [hing] at hsc; simp at hsc
        | true => simp [execute_flow, flowPrefix, hstg0, hhash, hne']
  · intro hhash hstg hhub E hE
    subst hE
    have hhub' : env.hub_errors.isEmpty = false := by
      cases henv : env.hub_errors with
      | nil => exact absurd henv hhub
      | cons a l => rfl
    refine ⟨?_, not_mem_append_of hfp.2.2.1 (by simp),
      not_mem_append_of hfp.2.2.2 (by simp), List.mem_append_right _ (by simp)⟩
    rcases hstg with rfl | hstg0
    · simp [execute_flow, flowPrefix, hhash, hhub']
    · cases file with
      | none => simp [execute_flow, flowPrefix, hhash, hhub']
      | some f =>
        cases force with
        | false =>
          cases hing : env.already_ingested with
          | false => simp [execute_flow, flowPrefix, hing, hstg0, hhash, hhub']
          | true => rw [hing] at hsc; simp at hsc
        | true => simp [execute_flow, flowPrefix, hstg0, hhash, hhub']
  · intro hhash hstg hhub hlink E hE
    subst hE
    have hlink' : env.link_errors.isEmpty = false := by
      cases henv : env.link_errors with
      | nil => exact absurd henv hlink
      | cons a l => rfl
    refine ⟨?_, not_mem_append_of hfp.2.2.2 (by simp),
      List.mem_append_right _ (by simp)⟩
    rcases hstg with rfl | hstg0
    · simp [execute_flow, flowPrefix, hhash, hhub, hlink']
    · cases file with
      | none => simp [execute_flow, flowPrefix, hhash, hhub, hlink']
      | some f =>
        cases force with
        | false =>
          cases hing : env.already_ingested with
          | false => simp [execute_flow, flowPrefix, hing, hstg0, hhash, hhub, hlink']
          | true => rw [hing] at hsc; simp at hsc
        | true => simp [execute_flow, flowPrefix, hstg0, hhash, hhub, hlink']

/-- C9 witness: the theorem applied to an environment whose hub stage
fails. -/
theorem C9_flow_short_circuit_witness :
    execute_flow (FlowEnv.mk false 5 [] (Except.ok []) [("insert hub", "boom")] [] [])
        "customer" "src" none false =
      Except.ok ([("insert hub", "boom")],
        flowPrefix "customer" 5 none false ++
          [FlowEvent.stageHash, FlowEvent.stageHub,
           FlowEvent.registerRun "customer" 5 none "failure"
             (run_end_message [("insert hub", "boom")])]) ∧
    FlowEvent.stageLink ∉ flowPrefix "customer" 5 none false ++
      [FlowEvent.stageHash, FlowEvent.stageHub,
       FlowEvent.registerRun "customer" 5 none "failure"
         (run_end_message [("insert hub", "boom")])] ∧
    FlowEvent.stageSat ∉ flowPrefix "customer" 5 none false ++
      [FlowEvent.stageHash, FlowEvent.stageHub,
       FlowEvent.registerRun "customer" 5 none "failure"
         (run_end_message [("insert hub", "boom")])] ∧
    FlowEvent.stageHash ∈ flowPrefix "customer" 5 none false ++
      [FlowEvent.stageHash, FlowEvent.stageHub,
       FlowEvent.registerRun "customer" 5 none "failure"
         (run_end_message [("insert hub", "boom")])] :=
  (C9_flow_short_circuit (FlowEnv.mk false 5 [] (Except.ok [])
      [("insert hub", "boom")] [] []) "customer" "src" none false rfl).2.2.2.1
    rfl (Or.inl rfl) (by simp) _ rfl
